import Mathlib

/-!
# Verification of the cobra install pipeline against its specification

Shallow embedding of the core of the `cobra` package manager
(resolver, multi-level cache, installer, installation registry,
index client, hash utilities) as executable Lean definitions,
together with theorems settling the specification claims.

Conventions used throughout:
* machine byte buffers are `List Nat`;
* fallible Rust functions returning `Result<T, CobraError>` become
  `Except CobraError T`;
* loops whose termination is data-dependent take an explicit fuel
  argument and return `Option`, `none` meaning fuel exhaustion;
* third-party library calls (serde serialization, BLAKE3/SHA-256
  digests, the HTTP transport) are parameters of the embedding,
  quantified in the theorems;
* asynchronous Rust functions are modelled by their sequential
  data flow: every await point in the modelled functions is a plain
  call whose result feeds the next step.
-/

/-- Model of `Dependency` from `src/lib.rs`: a requirement `name` plus a raw
version-spec string. -/
structure Dependency where
  name : String
  version_spec : String
deriving DecidableEq, Repr

/-- Model of `Package` from `src/lib.rs`: resolved package metadata. -/
structure Package where
  name : String
  version : String
  dependencies : List Dependency
  download_url : String
  hash : Option String
  size : Option Nat
deriving DecidableEq, Repr

/-- Model of `CobraError` from `src/lib.rs`; variants that wrap foreign error
types (`reqwest::Error`, `std::io::Error`) carry their rendered
message. -/
inductive CobraError where
  | Config (msg : String)
  | Network (msg : String)
  | Io (msg : String)
  | PackageNotFound (msg : String)
  | ResolutionFailed (msg : String)
  | InstallationFailed (msg : String)
  | Cache (msg : String)
  | PythonEnv (msg : String)
  | Archive (msg : String)
  | HashMismatch
deriving DecidableEq, Repr

/-- Byte buffers (`Vec<u8>` / `bytes::Bytes`). -/
abbrev Bytes := List Nat

/-- The `format!("\x7b\x7d@\x7b\x7d", name, version)` node key used by
`DependencyResolver::resolve` (src/core/resolver.rs). -/
def pkgKey (p : Package) : String :=
  p.name ++ "@" ++ p.version

/-! ## Dependency-string parser (src/registry/client.rs, `parse_dependency`)

Rust `&str` operations are modelled on `List Char`:
`s.split(c).next()` is `takeWhile (· ≠ c)` (the longest prefix before
the first separator), `trim` strips whitespace from both ends,
`find` returns the first index of a substring. -/

/-- Strip leading whitespace (helper for `trimChars`). -/
def trimLeft : List Char → List Char
  | [] => []
  | c :: cs => if c.isWhitespace then trimLeft cs else c :: cs

/-- Rust `str::trim`: strip whitespace from both ends. -/
def trimChars (l : List Char) : List Char :=
  (trimLeft (trimLeft l).reverse).reverse

/-- Rust `str::trim_end_matches(c)`: repeatedly strip a trailing `c`. -/
def trimEndMatches (c : Char) (l : List Char) : List Char :=
  (l.reverse.dropWhile (· = c)).reverse

/-- Rust `str::find(pat)` for a substring pattern: index of the first
occurrence, if any. -/
def findSub (pat : List Char) : List Char → Option Nat
  | [] => if pat = [] then some 0 else none
  | c :: cs =>
    if pat.isPrefixOf (c :: cs) then some 0
    else (findSub pat cs).map (· + 1)

/-- Rust `str::contains(pat)`. -/
def containsSub (pat l : List Char) : Bool :=
  (findSub pat l).isSome

/-- The operator table scanned by `parse_dependency`:
`["==", ">=", "<=", "~=", "!="]`, in source order. -/
def opList : List (List Char) :=
  [['=', '='], ['>', '='], ['<', '='], ['~', '='], ['!', '=']]

/-- The `for op in ops` loop of `parse_dependency`: return
`(before-the-operator, operator-and-after)` for the first operator in
table order that occurs in `s`; `none` when no listed operator
occurs. -/
def splitAtOp : List (List Char) → List Char → Option (List Char × List Char)
  | [], _ => none
  | op :: rest, s =>
    match findSub op s with
    | some pos => some (trimChars (s.take pos), trimChars (s.drop pos))
    | none => splitAtOp rest s

/-- Model of `parse_dependency` (src/registry/client.rs, lines 169-191) on
character lists. -/
def parseDependencyChars (l : List Char) : Option (List Char × List Char) :=
  let l1 := trimChars (l.takeWhile (· ≠ ';'))
  let l2 := trimChars (l1.takeWhile (· ≠ '['))
  match l2.findIdx? (· = '(') with
  | some pos =>
    some (trimChars (l2.take pos),
          trimChars (trimEndMatches ')' (l2.drop (pos + 1))))
  | none =>
    if containsSub ['=', '='] l2 || containsSub ['>', '='] l2 ||
        containsSub ['<', '='] l2 then
      splitAtOp opList l2
    else
      some (l2, ['*'])

/-- Model of `parse_dependency` on strings. -/
def parse_dependency (s : String) : Option (String × String) :=
  (parseDependencyChars s.data).map (fun p => (String.mk p.1, String.mk p.2))

/-! ## Index client (src/registry/client.rs) -/

/-- One entry of the `urls` array of a PyPI metadata document, reduced
to the fields `get_package_info` reads. -/
structure UrlEntry where
  packagetype : Option String
  url : Option String
  size : Option Nat
  sha256 : Option String
deriving DecidableEq, Repr

/-- The parts of an HTTP response from the index that
`get_package_info` and `download_package` inspect: the success bit of
the status, the rendered status line (used in the download error
message), and the decoded JSON fields. `none` models a missing or
non-string/non-array JSON field. -/
structure PyPIResponse where
  success : Bool
  statusText : String
  info_version : Option String
  urls : Option (List UrlEntry)
  requires_dist : Option (List String)
deriving DecidableEq, Repr

/-- The two sequential `urls` scans of `get_package_info`: first
wheel (`bdist_wheel`), then, if the chosen URL is still empty, source
distribution (`sdist`). Returns `(download_url, size, hash)`. -/
def selectDownloadUrl (urlsArr : List UrlEntry) : String × Option Nat × Option String :=
  let afterWheel :=
    match urlsArr.find? (fun u => u.packagetype == some "bdist_wheel") with
    | some u => (u.url.getD "", u.size, u.sha256)
    | none => ("", none, none)
  if afterWheel.1 = "" then
    match urlsArr.find? (fun u => u.packagetype == some "sdist") with
    | some u => (u.url.getD "", u.size, u.sha256)
    | none => afterWheel
  else afterWheel

/-- Model of `RegistryClient::get_package_info` (src/registry/client.rs,
lines 37-144), given the already-received response for the
metadata request. The network transport itself is outside the model:
a transport failure would surface as `CobraError::Network` before this
logic runs. -/
def get_package_info (name : String) (resp : PyPIResponse) :
    Except CobraError Package :=
  if !resp.success then
    .error (.PackageNotFound name)
  else
    match resp.info_version with
    | none => .error (.PackageNotFound ("Invalid package data for " ++ name))
    | some version =>
      let sel := selectDownloadUrl (resp.urls.getD [])
      if sel.1 = "" then
        .error (.PackageNotFound ("No download URL found for " ++ name))
      else
        let deps := (resp.requires_dist.getD []).filterMap
          (fun s => (parse_dependency s).map (fun p => Dependency.mk p.1 p.2))
        .ok (Package.mk name version deps sel.1 sel.2.2 sel.2.1)

/-- Model of `RegistryClient::download_package` (src/registry/client.rs,
lines 147-159), given the already-received response for the artifact
request: non-success status maps to `InstallationFailed` with the
rendered status. On success the response is handed back for
streaming. -/
def download_package (resp : PyPIResponse) : Except CobraError PyPIResponse :=
  if !resp.success then
    .error (.InstallationFailed ("Failed to download: " ++ resp.statusText))
  else
    .ok resp

/-! ## Hash utilities (src/utils/hash.rs) -/

/-- The 64 KiB read loop of `compute_hash`: the chunks successively
passed to `Hasher::update`. -/
def chunksOf (n : Nat) (l : List Nat) : List (List Nat) :=
  if h : l = [] ∨ n = 0 then []
  else
    have : l.length - n < l.length := by
      rcases l with _ | ⟨a, t⟩
      · simp at h
      · have hn : n ≠ 0 := fun hn0 => h (Or.inr hn0)
        simp only [List.length_cons]
        omega
    l.take n :: chunksOf n (l.drop n)
termination_by l.length
decreasing_by simpa using this

/-- Model of `compute_hash` (src/utils/hash.rs, lines 14-28): feed the file's
contents to a BLAKE3 hasher in chunks of 65536 bytes and render the
digest as hex. The BLAKE3 function itself is the parameter
`blake3Hex`, mapping the full absorbed byte stream to the (lowercase)
hex digest string produced by `Hash::to_hex`. -/
def compute_hash (blake3Hex : List Nat → String) (file : Bytes) : String :=
  blake3Hex (chunksOf 65536 file).flatten

/-- Model of `verify_package_hash` (src/utils/hash.rs, lines 8-11):
string-compare the computed BLAKE3 hex digest against the expected
one. -/
def verify_package_hash (blake3Hex : List Nat → String) (file : Bytes)
    (expected_hash : String) : Except CobraError Bool :=
  .ok (compute_hash blake3Hex file == expected_hash)

/-! ## Installation registry (src/core/package_manager.rs) -/

/-- Model of `InstalledPackage`; `installed_at` is an abstract timestamp and
`install_path` a rendered path string. -/
structure InstalledPackage where
  name : String
  version : String
  install_path : String
  installed_at : Nat
deriving DecidableEq, Repr

/-- Model of `PackageRegistry`: the `HashMap<String, InstalledPackage>`
modelled as an association list with the key of every binding
looked up first-match; `register`/`remove` keep keys unique. -/
structure PackageRegistry where
  packages : List (String × InstalledPackage)
deriving DecidableEq, Repr

/-- Model of `LocalPackageManager::version_satisfies`
(src/core/package_manager.rs, lines 118-131). -/
def version_satisfies (installed required : String) : Bool :=
  if required = "*" then true
  else if ['=', '='].isPrefixOf required.data then
    installed.data == required.data.drop 2
  else
    installed == required

/-- Result of one `is_package_installed` call: the returned boolean,
the registry as left on disk afterwards, and whether `save_registry`
was invoked (the self-heal persist). -/
structure RegCheckResult where
  result : Bool
  registry : PackageRegistry
  saved : Bool
deriving DecidableEq, Repr

/-- Model of `LocalPackageManager::is_package_installed`
(src/core/package_manager.rs, lines 64-83). `pathExists` models
`Path::exists` for the recorded `install_path`. The registry is the
one `load_registry` returned; a save failure would propagate, the
model assumes the save succeeds. -/
def is_package_installed (pathExists : String → Bool)
    (registry : PackageRegistry) (name version : String) : RegCheckResult :=
  match registry.packages.lookup name with
  | some installed =>
    if version_satisfies installed.version version then
      if pathExists installed.install_path then
        ⟨true, registry, false⟩
      else
        ⟨false, ⟨registry.packages.filter (fun p => p.1 != name)⟩, true⟩
    else
      ⟨false, registry, false⟩
  | none => ⟨false, registry, false⟩

/-! ## Filesystem write traces (src/core/package_manager.rs
`save_registry`; src/utils/fs.rs `atomic_write`)

To compare the two write paths we record the sequence of filesystem
effects each performs. -/

/-- One filesystem mutation. `writeFile` covers both `fs::write` and
the create/`write_all`/`sync_all` sequence, which leave the same
single-file content behind. -/
inductive FsOp where
  | createDirAll (path : String)
  | writeFile (path : String) (contents : String)
  | rename (src dst : String)
deriving DecidableEq, Repr

/-- Effect trace of `atomic_write(parent/fileName, contents)`
(src/utils/fs.rs, lines 7-27): ensure the parent directory, write a
`.<fileName>.tmp` sibling, rename it over the target. -/
def atomic_write (parent fileName contents : String) : List FsOp :=
  [FsOp.createDirAll parent,
   FsOp.writeFile (parent ++ "/." ++ fileName ++ ".tmp") contents,
   FsOp.rename (parent ++ "/." ++ fileName ++ ".tmp") (parent ++ "/" ++ fileName)]

/-- Effect trace of `LocalPackageManager::save_registry`
(src/core/package_manager.rs, lines 56-61): serialize with
`serde_json::to_string_pretty` (the parameter `pretty`; serialization
of this plain record type cannot fail) and `fs::write` the result
directly to the registry path. -/
def save_registry (pretty : PackageRegistry → String)
    (registry_path : String) (registry : PackageRegistry) : List FsOp :=
  [FsOp.writeFile registry_path (pretty registry)]

/-- Does a trace perform any rename? The write-temp-then-rename
pattern claimed by the specification requires one. -/
def traceHasRename (t : List FsOp) : Bool :=
  t.any fun op => match op with
    | .rename _ _ => true
    | _ => false

/-! ## Cache keys (src/core/installer.rs line 109,
src/core/resolver.rs lines 104 and 117) -/

/-- The artifact cache key computed by `Installer::install_single`. -/
def installer_cache_key (p : Package) : String :=
  "package:" ++ p.name ++ ":" ++ p.version

/-- The metadata cache key computed by
`DependencyResolver::fetch_package_metadata`. -/
def metadata_cache_key (name version_spec : String) : String :=
  "metadata:" ++ name ++ ":" ++ version_spec

/-- The installer key shape asserted by the specification
(`artifact:<name>:<version>`), written from the spec's words for
comparison with `installer_cache_key`. -/
def specArtifactKey (name version : String) : String :=
  "artifact:" ++ name ++ ":" ++ version

/-! ## Multi-level cache (src/core/cache.rs)

The `lru::LruCache` is modelled as a most-recent-first association
list of capacity `MEMORY_CACHE_ENTRIES`; the sled disk tree as an
association list with upsert; the bloom filter as the exact set of
keys ever inserted (sound for the filter's guaranteed direction: no
false negative for an inserted key; a bloom false positive merely
falls through to the L1/L2 lookup, which the model's exact check
subsumes). -/

/-- Constant `MEMORY_CACHE_ENTRIES` from `src/lib.rs` `constants`. -/
def MEMORY_CACHE_ENTRIES : Nat := 1000

/-- Model of `LruCache::put`: insert or refresh at the front, evicting the
least-recently-used tail entry when a new key overflows the
capacity. -/
def lruPut (k : String) (v : Bytes) (l : List (String × Bytes)) :
    List (String × Bytes) :=
  ((k, v) :: l.filter (fun p => p.1 != k)).take MEMORY_CACHE_ENTRIES

/-- Model of `LruCache::get`: on a hit, move the entry to the front. -/
def lruGet (k : String) (l : List (String × Bytes)) :
    Option Bytes × List (String × Bytes) :=
  match l.lookup k with
  | some v => (some v, (k, v) :: l.filter (fun p => p.1 != k))
  | none => (none, l)

/-- Model of `sled::Tree::insert`: upsert. -/
def diskInsert (k : String) (v : Bytes) (d : List (String × Bytes)) :
    List (String × Bytes) :=
  (k, v) :: d.filter (fun p => p.1 != k)

/-- The mutable state of `MultiLevelCache`. -/
structure CacheState where
  memory : List (String × Bytes)
  disk : List (String × Bytes)
  bloom : List String
  hits : Nat
  misses : Nat
deriving DecidableEq, Repr

/-- The state `MultiLevelCache::new` starts from (and `clear` resets
to): empty tiers, zero counters. -/
def emptyCache : CacheState := ⟨[], [], [], 0, 0⟩

/-- Model of `MultiLevelCache::get` (src/core/cache.rs, lines 42-75): bloom
check, then L1 (promoting on hit), then L2 (promoting to L1 on
hit). -/
def cacheGet (k : String) (s : CacheState) : Option Bytes × CacheState :=
  if !s.bloom.contains k then
    (none, { s with misses := s.misses + 1 })
  else
    match lruGet k s.memory with
    | (some v, mem2) => (some v, { s with memory := mem2, hits := s.hits + 1 })
    | (none, _) =>
      match s.disk.lookup k with
      | some v =>
        (some v, { s with memory := lruPut k v s.memory, hits := s.hits + 1 })
      | none => (none, { s with misses := s.misses + 1 })

/-- Model of `MultiLevelCache::put` (src/core/cache.rs, lines 77-89): insert
into the bloom filter, L1 and L2. The sled write error path surfaces
to the caller without corrupting the in-memory tiers; the model keeps
the succeeding case. -/
def cachePut (k : String) (v : Bytes) (s : CacheState) : CacheState :=
  { s with
    bloom := k :: s.bloom
    memory := lruPut k v s.memory
    disk := diskInsert k v s.disk }

/-- Model of `MultiLevelCache::clear` (src/core/cache.rs, lines 91-99). -/
def cacheClear (_s : CacheState) : CacheState := emptyCache

/-- One client operation against the cache, for stating trace
properties. -/
inductive CacheOp where
  | getOp (k : String)
  | putOp (k : String) (v : Bytes)
  | clearOp
deriving DecidableEq, Repr

/-- Apply one operation to the cache state. -/
def cacheStep (s : CacheState) (op : CacheOp) : CacheState :=
  match op with
  | .getOp k => (cacheGet k s).2
  | .putOp k v => cachePut k v s
  | .clearOp => cacheClear s

/-- Run a sequence of operations. -/
def cacheRun (s : CacheState) (ops : List CacheOp) : CacheState :=
  ops.foldl cacheStep s

/-! ## Resolver metadata fetch (src/core/resolver.rs, lines 101-124) -/

/-- Model of `DependencyResolver::fetch_package_metadata` with the cache
present (`cache = Some`; with `cache = None` both cache interactions
are skipped and the function is just `client`). `client` models
`RegistryClient::get_package_info` for the configured index; `deser`
and `ser` model `serde_json::from_slice::<Package>` and
`serde_json::to_vec` (serialization of `Package` cannot fail, and the
`let _ =` around `cache.put` discards a cache write error, so `ser`
is total and the put is applied). Returns the package and the cache
state after the call. -/
def fetch_package_metadata (client : String → String → Except CobraError Package)
    (deser : Bytes → Option Package) (ser : Package → Bytes)
    (s : CacheState) (name version_spec : String) :
    Except CobraError (Package × CacheState) :=
  let key := metadata_cache_key name version_spec
  let fetchRemote := fun (s1 : CacheState) =>
    match client name version_spec with
    | .error e => .error e
    | .ok pkg => .ok (pkg, cachePut key (ser pkg) s1)
  match cacheGet key s with
  | (some data, s1) =>
    match deser data with
    | some pkg => .ok (pkg, s1)
    | none => fetchRemote s1
  | (none, s1) => fetchRemote s1

/-! ## Dependency resolver (src/core/resolver.rs, lines 22-99)

The metadata fetch is abstracted into a pure function
`f : name → version_spec → Except CobraError Package` (the cached
read-through of `fetch_package_metadata` is deterministic for a fixed
index and cache discipline). The `petgraph::Graph` is a label array
plus an edge list in insertion order. -/

/-- The `petgraph::Graph<String, ()>` built by `resolve`: node labels
indexed by insertion position, directed edges in insertion order. -/
structure RGraph where
  nodes : List String
  edges : List (Nat × Nat)
deriving DecidableEq, Repr

/-- Model of `Graph::add_node`: append a label, returning the graph and the new
node's index. -/
def addNode (g : RGraph) (label : String) : RGraph × Nat :=
  ({ g with nodes := g.nodes ++ [label] }, g.nodes.length)

/-- Model of `Graph::neighbors(u)`: targets of edges out of `u`. petgraph
iterates the adjacency list most-recently-added first, hence the
reverse of insertion order. -/
def neighbors (g : RGraph) (u : Nat) : List Nat :=
  ((g.edges.filter (fun e => e.1 == u)).map (·.2)).reverse

/-- The loop state of `DependencyResolver::resolve`: the graph, the
`node_map` and `all_packages` hash maps (association lists, newest
binding first, inserted only for fresh keys), the `to_process` stack
(head = most recently pushed) and the `processed` key set. -/
structure RState where
  graph : RGraph
  nodeMap : List (String × Nat)
  allPackages : List (String × Package)
  toProcess : List Package
  processed : List String
deriving DecidableEq, Repr

/-- Model of `futures::future::try_join_all` over
`fetch_package_metadata` calls: all results in order, or the failure.
(Which of several concurrent failures surfaces is nondeterministic in
the program; the model reports the first in list order. All claims
depend only on ok results or on failure as such.) -/
def fetchAll (f : String → String → Except CobraError Package) :
    List Dependency → Except CobraError (List Package)
  | [] => .ok []
  | d :: rest =>
    match f d.name d.version_spec with
    | .error e => .error e
    | .ok p =>
      match fetchAll f rest with
      | .error e => .error e
      | .ok ps => .ok (p :: ps)

/-- The root-seeding loop of `resolve` (lines 40-44): one node per
direct package, keyed by `pkgKey`. -/
def addRootNode (st : RState) (pkg : Package) : RState :=
  let key := pkgKey pkg
  let gi := addNode st.graph key
  { st with
    graph := gi.1
    nodeMap := (key, gi.2) :: st.nodeMap
    allPackages := (key, pkg) :: st.allPackages }

/-- The resolver state after seeding the roots and initializing the
worklist with `to_process = packages.clone()` (line 47); the list
head models the top of the Rust `Vec` (its last element). -/
def initState (roots : List Package) : RState :=
  let st := roots.foldl addRootNode ⟨⟨[], []⟩, [], [], [], []⟩
  { st with toProcess := roots.reverse }

/-- The per-dependency body of the expansion loop (lines 66-81): add
a node (and worklist entry) for an unseen `(name, version)`, then add
the edge parent → dependency. -/
def addDepEdge (parentKey : String) (st : RState) (depPkg : Package) : RState :=
  let depKey := pkgKey depPkg
  let st1 :=
    if (st.nodeMap.lookup depKey).isSome then st
    else
      let gi := addNode st.graph depKey
      { st with
        graph := gi.1
        nodeMap := (depKey, gi.2) :: st.nodeMap
        allPackages := (depKey, depPkg) :: st.allPackages
        toProcess := depPkg :: st.toProcess }
  match st1.nodeMap.lookup parentKey, st1.nodeMap.lookup depKey with
  | some fromIdx, some toIdx =>
    { st1 with graph := { st1.graph with
        edges := st1.graph.edges ++ [(fromIdx, toIdx)] } }
  | _, _ => st1

/-- The `while let Some(pkg) = to_process.pop()` loop of `resolve`
(lines 50-83), with fuel; `none` is fuel exhaustion. -/
def expand (f : String → String → Except CobraError Package) :
    Nat → RState → Option (Except CobraError RState)
  | 0, _ => none
  | fuel + 1, st =>
    match st.toProcess with
    | [] => some (.ok st)
    | pkg :: rest =>
      let key := pkgKey pkg
      if key ∈ st.processed then
        expand f fuel { st with toProcess := rest }
      else
        let st1 := { st with toProcess := rest, processed := key :: st.processed }
        if pkg.dependencies.isEmpty then
          expand f fuel st1
        else
          match fetchAll f pkg.dependencies with
          | .error e => some (.error e)
          | .ok depPkgs => expand f fuel (depPkgs.foldl (addDepEdge key) st1)

/-! ### petgraph toposort

`petgraph::algo::toposort` (modelled from the library: an iterative
DFS over node identifiers in index order that records nodes in finish
order; a node may be finished only when all its successors already
are, otherwise — a back edge — the sort fails with `Cycle`; a
self-loop fails at discovery; the reversed finish order is
returned). -/

/-- DFS state of the toposort: explicit stack (head = top),
discovered and finished visit maps, and the finish-ordered list. -/
structure TState where
  stack : List Nat
  discovered : List Nat
  finished : List Nat
  finishStack : List Nat
deriving DecidableEq, Repr

/-- The toposort driver loop, with fuel: `i` is the outer iteration
over node identifiers, the inner steps process the DFS stack.
`some (.error ())` is `Err(Cycle)`. -/
def topoLoop (g : RGraph) : Nat → Nat → TState → Option (Except Unit (List Nat))
  | 0, _, _ => none
  | fuel + 1, i, ts =>
    match ts.stack with
    | [] =>
      if i < g.nodes.length then
        if i ∈ ts.discovered then topoLoop g fuel (i + 1) ts
        else topoLoop g fuel (i + 1) { ts with stack := [i] }
      else
        some (.ok ts.finishStack.reverse)
    | nx :: rest =>
      if nx ∈ ts.discovered then
        if nx ∈ ts.finished then
          topoLoop g fuel i { ts with stack := rest }
        else
          if (neighbors g nx).all (fun s => s ∈ ts.finished) then
            topoLoop g fuel i
              { ts with stack := rest, finished := nx :: ts.finished,
                        finishStack := ts.finishStack ++ [nx] }
          else
            some (.error ())
      else
        if nx ∈ neighbors g nx then
          some (.error ())
        else
          let disc2 := nx :: ts.discovered
          let pushes := ((neighbors g nx).filter (fun s => s ∉ disc2)).reverse
          topoLoop g fuel i { ts with discovered := disc2, stack := pushes ++ nx :: rest }

/-- Model of `toposort(&graph, None)` on the built graph. -/
def toposort (g : RGraph) (fuel : Nat) : Option (Except Unit (List Nat)) :=
  topoLoop g fuel 0 ⟨[], [], [], []⟩

/-- The fallback package used to totalize list indexing in
`pkgOfNode`; never reachable on the states `resolve` builds. -/
def defaultPackage : Package := ⟨"", "", [], "", none, none⟩

/-- The body of the output loop of `resolve` (lines 90-96):
`all_packages[graph[node]]`, totalized. -/
def pkgOfNode (st : RState) (n : Nat) : Package :=
  ((st.graph.nodes.get? n).bind (st.allPackages.lookup ·)).getD defaultPackage

/-- Model of `DependencyResolver::resolve` (src/core/resolver.rs, lines
22-99): empty input short-circuits; fetch the direct packages; seed
the graph; expand the worklist; toposort; emit packages in reverse
topological order. `none` is fuel exhaustion of either loop. -/
def resolve (f : String → String → Except CobraError Package)
    (fuel : Nat) (dependencies : List Dependency) :
    Option (Except CobraError (List Package)) :=
  if dependencies.isEmpty then some (.ok [])
  else
    match fetchAll f dependencies with
    | .error e => some (.error e)
    | .ok roots =>
      match expand f fuel (initState roots) with
      | none => none
      | some (.error e) => some (.error e)
      | some (.ok st) =>
        match toposort st.graph fuel with
        | none => none
        | some (.error ()) =>
          some (.error (.ResolutionFailed "Circular dependency detected"))
        | some (.ok sorted) =>
          some (.ok (sorted.reverse.filterMap (fun n =>
            (st.graph.nodes.get? n).bind (st.allPackages.lookup ·))))

/-! ## Statement-level definitions for the resolver claims -/

/-- The specification's plan-ordering property: every dependency of
every plan element resolves (via the same fetch function) to a package
that occurs — by the resolver's `(name, version)` package identity —
at a strictly lower plan index. -/
def planOrdered (f : String → String → Except CobraError Package)
    (P : List Package) : Prop :=
  ∀ i, (hi : i < P.length) → ∀ dep ∈ (P.get ⟨i, hi⟩).dependencies, ∀ d,
    f dep.name dep.version_spec = .ok d →
      ∃ j, ∃ hj : j < P.length, j < i ∧ pkgKey (P.get ⟨j, hj⟩) = pkgKey d

/-- Order soundness of a node list w.r.t. a graph: every successor of
the node at index `i` occurs at a strictly lower index. (This is the
orientation of the resolver's final plan; the toposort's own output
is its reverse.) -/
def finOrdered (g : RGraph) (l : List Nat) : Prop :=
  ∀ i, (hi : i < l.length) → ∀ s ∈ neighbors g (l.get ⟨i, hi⟩),
    ∃ j, ∃ hj : j < l.length, j < i ∧ l.get ⟨j, hj⟩ = s

/-- A directed walk `u → v₁ → v₂ → ⋯` along graph edges. -/
def chainFromB (g : RGraph) : Nat → List Nat → Bool
  | _, [] => true
  | u, v :: rest => g.edges.contains (u, v) && chainFromB g v rest

/-- The graph contains a directed cycle: a closed nonempty walk. -/
def hasCycle (g : RGraph) : Prop :=
  ∃ u l, chainFromB g u (l ++ [u]) = true

/-- Loop invariant of `topoLoop` at outer index `i`. -/
structure TopoInv (g : RGraph) (i : Nat) (ts : TState) : Prop where
  fin_mem : ∀ x, x ∈ ts.finished ↔ x ∈ ts.finishStack
  fs_nodup : ts.finishStack.Nodup
  fs_ord : finOrdered g ts.finishStack
  disc_fin : ∀ x, x ∈ ts.discovered → x ∈ ts.finished ∨ x ∈ ts.stack
  below_disc : ∀ t, t < i → t ∈ ts.discovered ∨ t ∈ ts.stack
  stack_bound : ∀ x ∈ ts.stack, x < g.nodes.length
  fs_bound : ∀ x ∈ ts.finishStack, x < g.nodes.length

/-- Structural invariant of the resolver's expansion state (graph,
`node_map`, `all_packages`, worklist, processed set), established by
`initState` on key-distinct roots and preserved by the loop. -/
structure RInv (st : RState) : Prop where
  map_nodes : ∀ k n, st.nodeMap.lookup k = some n → st.graph.nodes.get? n = some k
  nodes_map : ∀ k, k ∈ st.graph.nodes → (st.nodeMap.lookup k).isSome
  pkg_at : ∀ k p, st.allPackages.lookup k = some p → pkgKey p = k
  node_pkg : ∀ k, k ∈ st.graph.nodes → (st.allPackages.lookup k).isSome
  toProc_pkg : ∀ p ∈ st.toProcess,
    st.allPackages.lookup (pkgKey p) = some p ∧ pkgKey p ∈ st.graph.nodes
  processed_nodes : ∀ k ∈ st.processed, k ∈ st.graph.nodes
  nodes_cover : ∀ k ∈ st.graph.nodes,
    k ∈ st.processed ∨ ∃ p ∈ st.toProcess, pkgKey p = k
  edges_bound : ∀ e ∈ st.graph.edges,
    e.1 < st.graph.nodes.length ∧ e.2 < st.graph.nodes.length

/-- Monotone facts relating an expansion state to a later one:
`node_map` bindings persist, edges persist, `all_packages` bindings of
mapped keys persist, and graph nodes persist. -/
def rMono (st st2 : RState) : Prop :=
  (∀ k n, st.nodeMap.lookup k = some n → st2.nodeMap.lookup k = some n) ∧
  (∀ e ∈ st.graph.edges, e ∈ st2.graph.edges) ∧
  (∀ k, (st.nodeMap.lookup k).isSome →
    st2.allPackages.lookup k = st.allPackages.lookup k) ∧
  (∀ k, k ∈ st.graph.nodes → k ∈ st2.graph.nodes)

/-- The processed keys in `K` have had their dependency edges
materialized: each dependency of the stored package fetches to some
`d` whose node is an edge target of the key's node. -/
def depsDone (f : String → String → Except CobraError Package)
    (st : RState) (K : List String) : Prop :=
  ∀ k ∈ K, ∀ p, st.allPackages.lookup k = some p →
    ∀ dep ∈ p.dependencies, ∃ d, f dep.name dep.version_spec = .ok d ∧
      ∃ ni nd, st.nodeMap.lookup k = some ni ∧
        st.nodeMap.lookup (pkgKey d) = some nd ∧ (ni, nd) ∈ st.graph.edges

/-! ## Concrete fixtures for counterexamples and witnesses -/

/-- Package `a 1.0`, depending on `b`. -/
def pkgA : Package := ⟨"a", "1.0", [⟨"b", "*"⟩], "urlA", none, none⟩

/-- Package `b 1.0`, no dependencies. -/
def pkgB : Package := ⟨"b", "1.0", [], "urlB", none, none⟩

/-- A two-package index: `a 1.0 → b 1.0`, `b 1.0` leaf. -/
def fAB : String → String → Except CobraError Package := fun n _ =>
  if n = "a" then .ok pkgA
  else if n = "b" then .ok pkgB
  else .error (.PackageNotFound n)

/-- The same direct dependency listed twice. -/
def dupDeps : List Dependency := [⟨"a", "*"⟩, ⟨"a", "*"⟩]

/-- Package `a 1.0` of the cyclic index, depending on `b`. -/
def pkgACyc : Package := ⟨"a", "1.0", [⟨"b", "*"⟩], "urlA", none, none⟩

/-- Package `b 1.0` of the cyclic index, depending back on `a`. -/
def pkgBCyc : Package := ⟨"b", "1.0", [⟨"a", "*"⟩], "urlB", none, none⟩

/-- A cyclic index: `a 1.0 → b 1.0 → a 1.0`. -/
def fCyc : String → String → Except CobraError Package := fun n _ =>
  if n = "a" then .ok pkgACyc
  else if n = "b" then .ok pkgBCyc
  else .error (.PackageNotFound n)

/-- Direct dependencies for the cyclic scenario. -/
def cycDeps : List Dependency := [⟨"a", "*"⟩]

/-- The expansion state the resolver builds on the cyclic index
(extracted from the run; the fallback branch is unreachable). -/
def cycState : RState :=
  match expand fCyc 100 (initState [pkgACyc]) with
  | some (.ok st) => st
  | _ => ⟨⟨[], []⟩, [], [], [], []⟩

/-- Characters that occur in plain requirement names and versions:
no whitespace, none of the delimiter or operator characters the
parser reacts to. -/
def plainChar (c : Char) : Bool :=
  !c.isWhitespace && !([';', '[', '(', ')', '=', '<', '>', '~', '!'].contains c)

/-- Discriminator: is this client result a `PackageNotFound`
error? -/
def isPackageNotFoundErr : Except CobraError PyPIResponse → Bool
  | .error (.PackageNotFound _) => true
  | _ => false

/-- A one-entry registry: `a 1.0` installed at `/lib/a`. -/
def regA : PackageRegistry := ⟨[("a", ⟨"a", "1.0", "/lib/a", 0⟩)]⟩

/-- Characters the parser treats specially (delimiters and operator
heads); disjoint from `plainChar`. -/
def specialChar (c : Char) : Bool :=
  [';', '[', '(', ')', '=', '<', '>', '~', '!'].contains c

/-! # Theorems -/

/-! ## C3: registry saving is a direct write, not write-temp-then-rename -/

/-- C3 counterexample. The claim states that saving the registry
writes a temporary file and renames it over the registry file. On the
code, `save_registry` performs a single direct `fs::write` of the
pretty-printed document to the registry path and no rename at all,
whereas the (unused) `atomic_write` helper is the rename pattern the
claim describes. -/
theorem save_registry_not_atomic :
    save_registry (fun _ => "serialized") "proj/.cobra/cobra-registry.json" ⟨[]⟩ =
      [FsOp.writeFile "proj/.cobra/cobra-registry.json" "serialized"] ∧
    traceHasRename
      (save_registry (fun _ => "serialized") "proj/.cobra/cobra-registry.json" ⟨[]⟩) = false ∧
    traceHasRename (atomic_write "proj/.cobra" "cobra-registry.json" "serialized") = true := by
  refine ⟨rfl, rfl, rfl⟩

/-- C3 amended: `save_registry` serializes the registry to pretty
JSON and writes it to the registry path in one direct whole-file
write; no temporary file is written and no rename is performed (the
repository's `atomic_write` helper is never called on this path). -/
theorem save_registry_direct_write (pretty : PackageRegistry → String)
    (path : String) (reg : PackageRegistry) :
    save_registry pretty path reg = [FsOp.writeFile path (pretty reg)] ∧
    traceHasRename (save_registry pretty path reg) = false :=
  ⟨rfl, rfl⟩

/-! ## C4: cache keyspace prefixes -/

/-- C4 counterexample. The claim states the installer reads and
writes artifact bytes under keys `artifact:<name>:<version>`; the
installer actually computes `package:<name>:<version>`. -/
theorem installer_cache_key_not_artifact :
    installer_cache_key pkgA = "package:a:1.0" ∧
    installer_cache_key pkgA ≠ specArtifactKey "a" "1.0" := by
  refine ⟨rfl, by decide⟩

/-- C4 amended: the cache keyspace is partitioned by prefix between
the two clients — the resolver uses `metadata:<name>:<spec>` and the
installer uses `package:<name>:<version>` — and no metadata key ever
collides with an installer key. -/
theorem cache_key_partition (p : Package) (name spec : String) :
    installer_cache_key p = "package:" ++ p.name ++ ":" ++ p.version ∧
    metadata_cache_key name spec = "metadata:" ++ name ++ ":" ++ spec ∧
    metadata_cache_key name spec ≠ installer_cache_key p := by
  refine ⟨rfl, rfl, ?_⟩
  intro h
  have h2 := congrArg (fun s => s.data.take 8) h
  simp only [metadata_cache_key, installer_cache_key, String.data_append,
    List.append_assoc] at h2
  rw [List.take_append_of_le_length (by decide),
    List.take_append_of_le_length (by decide)] at h2
  exact absurd h2 (by decide)

/-! ## C10: hash verification is BLAKE3 over the full contents -/

/-- Rejoining the 64 KiB read chunks gives back the file: the hasher
absorbs exactly the full contents. -/
theorem flatten_chunksOf (n : Nat) (hn : 0 < n) : ∀ (l : List Nat),
    (chunksOf n l).flatten = l := by
  have key : ∀ (m : Nat) (l : List Nat), l.length ≤ m →
      (chunksOf n l).flatten = l := by
    intro m
    induction m with
    | zero =>
      intro l hl
      have h0 : l = [] := List.length_eq_zero.mp (Nat.le_zero.mp hl)
      subst h0
      rw [chunksOf]
      simp
    | succ m ih =>
      intro l hl
      rw [chunksOf]
      by_cases h : l = [] ∨ n = 0
      · rcases h with h | h
        · simp [h]
        · omega
      · simp only [h, dite_false]
        have hne : l ≠ [] := fun he => h (Or.inl he)
        have hdl : (l.drop n).length ≤ m := by
          rcases l with _ | ⟨a, t⟩
          · exact absurd rfl hne
          · simp only [List.length_cons] at hl
            simp only [List.drop, List.length_drop, List.length_cons]
            omega
        rw [List.flatten_cons, ih (l.drop n) hdl]
        exact List.take_append_drop n l
  intro l
  exact key l.length l le_rfl

/-- C10: `verify_package_hash` returns `Ok(true)` exactly when the
expected string equals the BLAKE3 hex digest (as rendered by
`Hash::to_hex`, which is lowercase) of the file's full contents; it
computes no SHA-256, so an index-supplied sha256 digest of the same
artifact fails the check whenever the two digests differ (which for
the real functions is always, outside astronomically unlikely
collisions of truncation). -/
theorem verify_package_hash_blake3 (blake3Hex : List Nat → String)
    (file : Bytes) (expected : String) :
    (verify_package_hash blake3Hex file expected = .ok true ↔
       expected = blake3Hex file) ∧
    (∀ sha256Hex : List Nat → String, sha256Hex file ≠ blake3Hex file →
       verify_package_hash blake3Hex file (sha256Hex file) = .ok false) := by
  have hch : compute_hash blake3Hex file = blake3Hex file := by
    unfold compute_hash
    rw [flatten_chunksOf 65536 (by omega) file]
  unfold verify_package_hash
  rw [hch]
  constructor
  · constructor
    · intro h
      have h1 : (blake3Hex file == expected) = true := Except.ok.inj h
      exact (eq_of_beq h1).symm
    · intro h
      subst h
      simp
  · intro sha256Hex hne
    have h1 : (blake3Hex file == sha256Hex file) = false := by
      simpa [beq_eq_false_iff_ne] using fun he => hne he.symm
    rw [h1]

/-- C10 witness: at a concrete file and concrete digest functions,
the matching digest verifies and the differing one does not. -/
theorem verify_package_hash_blake3_witness :
    (verify_package_hash (fun _ => "bb") [7] "bb" = .ok true) ∧
    (verify_package_hash (fun _ => "bb") [7] "ss" = .ok false) :=
  ⟨(verify_package_hash_blake3 (fun _ => "bb") [7] "bb").1.mpr rfl,
   (verify_package_hash_blake3 (fun _ => "bb") [7] "bb").2 (fun _ => "ss") (by decide)⟩

/-! ## C8: error kinds of the index client -/

/-- C8 counterexample. The claim states every Index Client operation
maps a non-2xx response to `PackageNotFound`; `download_package`
actually maps it to `InstallationFailed`. -/
theorem download_package_error_kind :
    download_package ⟨false, "404 Not Found", none, none, none⟩ =
      .error (.InstallationFailed "Failed to download: 404 Not Found") ∧
    isPackageNotFoundErr
      (download_package ⟨false, "404 Not Found", none, none, none⟩) = false := by
  refine ⟨rfl, rfl⟩

/-- C8 amended: `get_package_info` maps a non-2xx response, a missing
version field, and a missing download URL each to `PackageNotFound`,
while `download_package` maps a non-2xx response to
`InstallationFailed` carrying the rendered status. -/
theorem client_error_mapping (name : String) (resp : PyPIResponse) :
    (resp.success = false →
       get_package_info name resp = .error (.PackageNotFound name)) ∧
    (resp.success = true → resp.info_version = none →
       get_package_info name resp =
         .error (.PackageNotFound ("Invalid package data for " ++ name))) ∧
    (∀ v, resp.success = true → resp.info_version = some v →
       (selectDownloadUrl (resp.urls.getD [])).1 = "" →
       get_package_info name resp =
         .error (.PackageNotFound ("No download URL found for " ++ name))) ∧
    (resp.success = false →
       download_package resp =
         .error (.InstallationFailed ("Failed to download: " ++ resp.statusText))) := by
  refine ⟨?_, ?_, ?_, ?_⟩
  · intro h
    unfold get_package_info
    rw [h]
    rfl
  · intro h hv
    unfold get_package_info
    rw [h, hv]
    rfl
  · intro v h hv hurl
    unfold get_package_info
    rw [h, hv]
    simp only [Bool.not_true, Bool.false_eq_true, if_false, hurl, if_true, ite_true]
  · intro h
    unfold download_package
    rw [h]
    rfl

/-- C8 witness: the four error mappings at concrete responses. -/
theorem client_error_mapping_witness :
    (get_package_info "x" ⟨false, "500", none, none, none⟩ =
       .error (.PackageNotFound "x")) ∧
    (get_package_info "x" ⟨true, "200", none, none, none⟩ =
       .error (.PackageNotFound ("Invalid package data for " ++ "x"))) ∧
    (get_package_info "x" ⟨true, "200", some "1.0", none, none⟩ =
       .error (.PackageNotFound ("No download URL found for " ++ "x"))) ∧
    (download_package ⟨false, "500", none, none, none⟩ =
       .error (.InstallationFailed ("Failed to download: " ++ "500"))) :=
  ⟨(client_error_mapping "x" ⟨false, "500", none, none, none⟩).1 rfl,
   (client_error_mapping "x" ⟨true, "200", none, none, none⟩).2.1 rfl rfl,
   (client_error_mapping "x" ⟨true, "200", some "1.0", none, none⟩).2.2.1 "1.0" rfl rfl rfl,
   (client_error_mapping "x" ⟨false, "500", none, none, none⟩).2.2.2 rfl⟩


/-! ## C6: operator scan of the dependency parser -/

/-- Plain characters collide with none of the parser's special
characters. -/
theorem plain_ne_special (a d : Char) (ha : plainChar a = true)
    (hd : specialChar d = true) : (a == d) = false := by
  cases hbeq : a == d
  · rfl
  · exfalso
    have had : a = d := eq_of_beq hbeq
    subst had
    unfold plainChar at ha
    unfold specialChar at hd
    rw [hd] at ha
    simp at ha

theorem plain_not_ws (a : Char) (ha : plainChar a = true) : a.isWhitespace = false := by
  unfold plainChar at ha
  cases h : a.isWhitespace
  · rfl
  · rw [h] at ha
    simp at ha

theorem takeWhile_all {α : Type} (p : α → Bool) (l : List α)
    (h : ∀ c ∈ l, p c = true) : l.takeWhile p = l := by
  induction l with
  | nil => rfl
  | cons a as ih =>
    simp [List.takeWhile_cons, h a (List.mem_cons_self a as),
      ih (fun c hc => h c (List.mem_cons_of_mem a hc))]

theorem trimLeft_eq_self (l : List Char) (h : ∀ c ∈ l, c.isWhitespace = false) :
    trimLeft l = l := by
  cases l with
  | nil => rfl
  | cons a as =>
    unfold trimLeft
    rw [h a (List.mem_cons_self a as)]
    simp

theorem trimChars_eq_self (l : List Char) (h : ∀ c ∈ l, c.isWhitespace = false) :
    trimChars l = l := by
  unfold trimChars
  rw [trimLeft_eq_self l h,
    trimLeft_eq_self l.reverse (fun c hc => h c (List.mem_reverse.mp hc)),
    List.reverse_reverse]

theorem findIdx?_none {α : Type} (p : α → Bool) (l : List α)
    (h : ∀ c ∈ l, p c = false) : l.findIdx? p = none :=
  List.findIdx?_eq_none_iff.mpr h

theorem findSub_cons_none (d : Char) (rest : List Char) (l : List Char)
    (h : ∀ c ∈ l, (c == d) = false) : findSub (d :: rest) l = none := by
  induction l with
  | nil => simp [findSub]
  | cons b bs ih =>
    have hbd : (d == b) = false := by
      cases hdb : d == b
      · rfl
      · have := (eq_of_beq hdb).symm
        rw [← beq_iff_eq (a := b) (b := d)] at this
        rw [h b (List.mem_cons_self b bs)] at this
        exact this.symm
    conv_lhs => rw [findSub]
    rw [show List.isPrefixOf (d :: rest) (b :: bs) = false by
          simp [List.isPrefixOf, hbd]]
    simp [ih (fun c hc => h c (List.mem_cons_of_mem b hc))]

theorem findSub_skip (d : Char) (pat2 : List Char) (n m : List Char)
    (hn : ∀ a ∈ n, (a == d) = false) :
    findSub (d :: pat2) (n ++ m) = (findSub (d :: pat2) m).map (· + n.length) := by
  induction n with
  | nil => simp
  | cons a as ih =>
    have had : (d == a) = false := by
      cases hda : d == a
      · rfl
      · have := (eq_of_beq hda).symm
        rw [← beq_iff_eq (a := a) (b := d)] at this
        rw [hn a (List.mem_cons_self a as)] at this
        exact this.symm
    show findSub (d :: pat2) (a :: (as ++ m)) = _
    conv_lhs => rw [findSub]
    rw [show List.isPrefixOf (d :: pat2) (a :: (as ++ m)) = false by
          simp [List.isPrefixOf, had]]
    simp only [Bool.false_eq_true, if_false]
    rw [ih (fun c hc => hn c (List.mem_cons_of_mem a hc))]
    cases findSub (d :: pat2) m with
    | none => rfl
    | some pos =>
      simp only [Option.map_some', List.length_cons, Option.some.injEq]
      omega

theorem isPrefixOf_single_false (v : List Char)
    (hv : ∀ b ∈ v, plainChar b = true) : List.isPrefixOf ['='] v = false := by
  cases v with
  | nil => rfl
  | cons b bs =>
    have hb : ('=' == b) = false := by
      cases h : ('=' == b)
      · rfl
      · have := (eq_of_beq h).symm
        rw [← beq_iff_eq (a := b) (b := '=')] at this
        rw [plain_ne_special b '=' (hv b (List.mem_cons_self b bs)) (by decide)] at this
        exact this.symm
    simp [List.isPrefixOf, hb]

theorem findSub_op_none (e c1 : Char) (v : List Char)
    (he : specialChar e = true) (hec : e ≠ c1)
    (hv : ∀ b ∈ v, plainChar b = true) :
    findSub [e, '='] (c1 :: '=' :: v) = none := by
  have h2 : findSub [e, '='] ('=' :: v) = none := by
    have hpre : List.isPrefixOf [e, '='] ('=' :: v) = false := by
      by_cases he2 : e = '='
      · subst he2
        simp [List.isPrefixOf, isPrefixOf_single_false v hv]
      · simp [List.isPrefixOf, beq_eq_false_iff_ne.mpr he2]
    conv_lhs => rw [findSub]
    rw [hpre]
    simp only [Bool.false_eq_true, if_false]
    rw [findSub_cons_none e ['='] v
      (fun c hc => plain_ne_special c e (hv c hc) he)]
    rfl
  have hpre1 : List.isPrefixOf [e, '='] (c1 :: '=' :: v) = false := by
    simp [List.isPrefixOf, beq_eq_false_iff_ne.mpr hec]
  conv_lhs => rw [findSub]
  rw [hpre1]
  simp only [Bool.false_eq_true, if_false]
  rw [h2]
  rfl

theorem findSub_two_self (c1 : Char) (n v : List Char)
    (hn : ∀ a ∈ n, plainChar a = true) (_hv : ∀ b ∈ v, plainChar b = true)
    (hc : specialChar c1 = true) :
    findSub [c1, '='] (n ++ c1 :: '=' :: v) = some n.length := by
  rw [findSub_skip c1 ['='] n _ (fun a ha => plain_ne_special a c1 (hn a ha) hc)]
  have h0 : findSub [c1, '='] (c1 :: '=' :: v) = some 0 := by
    conv_lhs => rw [findSub]
    simp [List.isPrefixOf]
  rw [h0]
  simp

theorem findSub_two_other (e c1 : Char) (n v : List Char)
    (hn : ∀ a ∈ n, plainChar a = true) (hv : ∀ b ∈ v, plainChar b = true)
    (he : specialChar e = true) (hec : e ≠ c1) :
    findSub [e, '='] (n ++ c1 :: '=' :: v) = none := by
  rw [findSub_skip e ['='] n _ (fun a ha => plain_ne_special a e (hn a ha) he)]
  rw [findSub_op_none e c1 v he hec hv]
  rfl

theorem parse_prep (c1 : Char) (n v : List Char)
    (hn : ∀ a ∈ n, plainChar a = true) (hv : ∀ b ∈ v, plainChar b = true)
    (hc1ws : c1.isWhitespace = false)
    (hsem : c1 ≠ ';') (hbr : c1 ≠ '[') (hpar : c1 ≠ '(') :
    parseDependencyChars (n ++ c1 :: '=' :: v) =
      (if containsSub ['=', '='] (n ++ c1 :: '=' :: v) ||
          containsSub ['>', '='] (n ++ c1 :: '=' :: v) ||
          containsSub ['<', '='] (n ++ c1 :: '=' :: v) then
        splitAtOp opList (n ++ c1 :: '=' :: v)
      else some (n ++ c1 :: '=' :: v, ['*'])) := by
  have hmem : ∀ x ∈ n ++ c1 :: '=' :: v, x ∈ n ∨ x = c1 ∨ x = '=' ∨ x ∈ v := by
    intro x hx
    simp only [List.mem_append, List.mem_cons] at hx
    tauto
  have hnws : ∀ x ∈ n ++ c1 :: '=' :: v, x.isWhitespace = false := by
    intro x hx
    rcases hmem x hx with h | h | h | h
    · exact plain_not_ws x (hn x h)
    · subst h; exact hc1ws
    · subst h; rfl
    · exact plain_not_ws x (hv x h)
  have hplain_ne : ∀ (c : Char), plainChar c = true → ∀ d, specialChar d = true → c ≠ d := by
    intro c hc d hd he
    subst he
    unfold plainChar at hc
    unfold specialChar at hd
    rw [hd] at hc
    simp at hc
  have e1 : List.takeWhile (fun c => decide (c ≠ ';')) (n ++ c1 :: '=' :: v) =
      n ++ c1 :: '=' :: v := by
    refine takeWhile_all _ _ (fun x hx => decide_eq_true ?_)
    rcases hmem x hx with h | h | h | h
    · exact hplain_ne x (hn x h) ';' (by decide)
    · subst h; exact hsem
    · subst h; decide
    · exact hplain_ne x (hv x h) ';' (by decide)
  have e2 : trimChars (n ++ c1 :: '=' :: v) = n ++ c1 :: '=' :: v :=
    trimChars_eq_self _ hnws
  have e3 : List.takeWhile (fun c => decide (c ≠ '[')) (n ++ c1 :: '=' :: v) =
      n ++ c1 :: '=' :: v := by
    refine takeWhile_all _ _ (fun x hx => decide_eq_true ?_)
    rcases hmem x hx with h | h | h | h
    · exact hplain_ne x (hn x h) '[' (by decide)
    · subst h; exact hbr
    · subst h; decide
    · exact hplain_ne x (hv x h) '[' (by decide)
  have e4 : List.findIdx? (fun c => decide (c = '(')) (n ++ c1 :: '=' :: v) = none := by
    refine findIdx?_none _ _ (fun x hx => decide_eq_false ?_)
    rcases hmem x hx with h | h | h | h
    · exact hplain_ne x (hn x h) '(' (by decide)
    · subst h; exact hpar
    · subst h; decide
    · exact hplain_ne x (hv x h) '(' (by decide)
  unfold parseDependencyChars
  simp only [e1, e2, e3, e4]

theorem trim_tail (c1 : Char) (v : List Char) (hc1ws : c1.isWhitespace = false)
    (hv : ∀ b ∈ v, plainChar b = true) :
    trimChars (c1 :: '=' :: v) = c1 :: '=' :: v := by
  refine trimChars_eq_self _ (fun x hx => ?_)
  rcases List.mem_cons.mp hx with h | hx2
  · subst h; exact hc1ws
  · rcases List.mem_cons.mp hx2 with h | h
    · subst h; rfl
    · exact plain_not_ws x (hv x h)

theorem parse_chars_eqeq (n v : List Char)
    (hn : ∀ a ∈ n, plainChar a = true) (hv : ∀ b ∈ v, plainChar b = true) :
    parseDependencyChars (n ++ '=' :: '=' :: v) = some (n, '=' :: '=' :: v) := by
  rw [parse_prep '=' n v hn hv (by decide) (by decide) (by decide) (by decide)]
  have hcc : containsSub ['=', '='] (n ++ '=' :: '=' :: v) = true := by
    unfold containsSub
    rw [findSub_two_self '=' n v hn hv (by decide)]
    rfl
  rw [hcc]
  simp only [Bool.true_or, if_true, ite_true]
  simp only [splitAtOp, opList]
  rw [findSub_two_self '=' n v hn hv (by decide)]
  simp only []
  rw [List.take_left' rfl, List.drop_left' rfl,
    trimChars_eq_self n (fun x hx => plain_not_ws x (hn x hx)),
    trim_tail '=' v (by decide) hv]

theorem parse_chars_ge (n v : List Char)
    (hn : ∀ a ∈ n, plainChar a = true) (hv : ∀ b ∈ v, plainChar b = true) :
    parseDependencyChars (n ++ '>' :: '=' :: v) = some (n, '>' :: '=' :: v) := by
  rw [parse_prep '>' n v hn hv (by decide) (by decide) (by decide) (by decide)]
  have h1 : containsSub ['=', '='] (n ++ '>' :: '=' :: v) = false := by
    unfold containsSub
    rw [findSub_two_other '=' '>' n v hn hv (by decide) (by decide)]
    rfl
  have h2 : containsSub ['>', '='] (n ++ '>' :: '=' :: v) = true := by
    unfold containsSub
    rw [findSub_two_self '>' n v hn hv (by decide)]
    rfl
  rw [h1, h2]
  simp only [Bool.false_or, Bool.true_or, if_true, ite_true]
  simp only [splitAtOp, opList]
  rw [findSub_two_other '=' '>' n v hn hv (by decide) (by decide),
    findSub_two_self '>' n v hn hv (by decide)]
  simp only []
  rw [List.take_left' rfl, List.drop_left' rfl,
    trimChars_eq_self n (fun x hx => plain_not_ws x (hn x hx)),
    trim_tail '>' v (by decide) hv]

theorem parse_chars_le (n v : List Char)
    (hn : ∀ a ∈ n, plainChar a = true) (hv : ∀ b ∈ v, plainChar b = true) :
    parseDependencyChars (n ++ '<' :: '=' :: v) = some (n, '<' :: '=' :: v) := by
  rw [parse_prep '<' n v hn hv (by decide) (by decide) (by decide) (by decide)]
  have h1 : containsSub ['=', '='] (n ++ '<' :: '=' :: v) = false := by
    unfold containsSub
    rw [findSub_two_other '=' '<' n v hn hv (by decide) (by decide)]
    rfl
  have h2 : containsSub ['>', '='] (n ++ '<' :: '=' :: v) = false := by
    unfold containsSub
    rw [findSub_two_other '>' '<' n v hn hv (by decide) (by decide)]
    rfl
  have h3 : containsSub ['<', '='] (n ++ '<' :: '=' :: v) = true := by
    unfold containsSub
    rw [findSub_two_self '<' n v hn hv (by decide)]
    rfl
  rw [h1, h2, h3]
  simp only [Bool.false_or, Bool.true_or, if_true, ite_true]
  simp only [splitAtOp, opList]
  rw [findSub_two_other '=' '<' n v hn hv (by decide) (by decide),
    findSub_two_other '>' '<' n v hn hv (by decide) (by decide),
    findSub_two_self '<' n v hn hv (by decide)]
  simp only []
  rw [List.take_left' rfl, List.drop_left' rfl,
    trimChars_eq_self n (fun x hx => plain_not_ws x (hn x hx)),
    trim_tail '<' v (by decide) hv]

theorem parse_chars_tilde (n v : List Char)
    (hn : ∀ a ∈ n, plainChar a = true) (hv : ∀ b ∈ v, plainChar b = true) :
    parseDependencyChars (n ++ '~' :: '=' :: v) = some (n ++ '~' :: '=' :: v, ['*']) := by
  rw [parse_prep '~' n v hn hv (by decide) (by decide) (by decide) (by decide)]
  have h1 : containsSub ['=', '='] (n ++ '~' :: '=' :: v) = false := by
    unfold containsSub
    rw [findSub_two_other '=' '~' n v hn hv (by decide) (by decide)]
    rfl
  have h2 : containsSub ['>', '='] (n ++ '~' :: '=' :: v) = false := by
    unfold containsSub
    rw [findSub_two_other '>' '~' n v hn hv (by decide) (by decide)]
    rfl
  have h3 : containsSub ['<', '='] (n ++ '~' :: '=' :: v) = false := by
    unfold containsSub
    rw [findSub_two_other '<' '~' n v hn hv (by decide) (by decide)]
    rfl
  rw [h1, h2, h3]
  simp

theorem parse_chars_bang (n v : List Char)
    (hn : ∀ a ∈ n, plainChar a = true) (hv : ∀ b ∈ v, plainChar b = true) :
    parseDependencyChars (n ++ '!' :: '=' :: v) = some (n ++ '!' :: '=' :: v, ['*']) := by
  rw [parse_prep '!' n v hn hv (by decide) (by decide) (by decide) (by decide)]
  have h1 : containsSub ['=', '='] (n ++ '!' :: '=' :: v) = false := by
    unfold containsSub
    rw [findSub_two_other '=' '!' n v hn hv (by decide) (by decide)]
    rfl
  have h2 : containsSub ['>', '='] (n ++ '!' :: '=' :: v) = false := by
    unfold containsSub
    rw [findSub_two_other '>' '!' n v hn hv (by decide) (by decide)]
    rfl
  have h3 : containsSub ['<', '='] (n ++ '!' :: '=' :: v) = false := by
    unfold containsSub
    rw [findSub_two_other '<' '!' n v hn hv (by decide) (by decide)]
    rfl
  rw [h1, h2, h3]
  simp

/-- C6 amended: on requirement strings without parentheses, extras,
markers or whitespace (plain name and version characters), the parser
splits at the operator for `==`, `>=` and `<=` (name before, operator
and version after); for `~=` and `!=` the guard fails and the result
is the whole string with spec `*`. -/
theorem parse_dependency_operator_split (name ver : String)
    (hn : ∀ c ∈ name.data, plainChar c = true)
    (hv : ∀ c ∈ ver.data, plainChar c = true) :
    parse_dependency (name ++ "==" ++ ver) = some (name, "==" ++ ver) ∧
    parse_dependency (name ++ ">=" ++ ver) = some (name, ">=" ++ ver) ∧
    parse_dependency (name ++ "<=" ++ ver) = some (name, "<=" ++ ver) ∧
    parse_dependency (name ++ "~=" ++ ver) = some (name ++ "~=" ++ ver, "*") ∧
    parse_dependency (name ++ "!=" ++ ver) = some (name ++ "!=" ++ ver, "*") := by
  refine ⟨?_, ?_, ?_, ?_, ?_⟩
  · show (parseDependencyChars (name ++ "==" ++ ver).data).map _ = _
    rw [show (name ++ "==" ++ ver).data = name.data ++ '=' :: '=' :: ver.data by
          rw [String.data_append, String.data_append,
            show ("==" : String).data = ['=', '='] by decide, List.append_assoc]; rfl]
    rw [parse_chars_eqeq name.data ver.data hn hv]
    rfl
  · show (parseDependencyChars (name ++ ">=" ++ ver).data).map _ = _
    rw [show (name ++ ">=" ++ ver).data = name.data ++ '>' :: '=' :: ver.data by
          rw [String.data_append, String.data_append,
            show (">=" : String).data = ['>', '='] by decide, List.append_assoc]; rfl]
    rw [parse_chars_ge name.data ver.data hn hv]
    rfl
  · show (parseDependencyChars (name ++ "<=" ++ ver).data).map _ = _
    rw [show (name ++ "<=" ++ ver).data = name.data ++ '<' :: '=' :: ver.data by
          rw [String.data_append, String.data_append,
            show ("<=" : String).data = ['<', '='] by decide, List.append_assoc]; rfl]
    rw [parse_chars_le name.data ver.data hn hv]
    rfl
  · show (parseDependencyChars (name ++ "~=" ++ ver).data).map _ = _
    rw [show (name ++ "~=" ++ ver).data = name.data ++ '~' :: '=' :: ver.data by
          rw [String.data_append, String.data_append,
            show ("~=" : String).data = ['~', '='] by decide, List.append_assoc]; rfl]
    rw [parse_chars_tilde name.data ver.data hn hv]
    show some (String.mk (name.data ++ '~' :: '=' :: ver.data), String.mk ['*']) = _
    rw [show String.mk (name.data ++ '~' :: '=' :: ver.data) = name ++ "~=" ++ ver by
          rw [show name ++ "~=" ++ ver = String.mk ((name ++ "~=" ++ ver).data) from rfl]
          rw [String.data_append, String.data_append,
            show ("~=" : String).data = ['~', '='] by decide, List.append_assoc]; rfl]
  · show (parseDependencyChars (name ++ "!=" ++ ver).data).map _ = _
    rw [show (name ++ "!=" ++ ver).data = name.data ++ '!' :: '=' :: ver.data by
          rw [String.data_append, String.data_append,
            show ("!=" : String).data = ['!', '='] by decide, List.append_assoc]; rfl]
    rw [parse_chars_bang name.data ver.data hn hv]
    show some (String.mk (name.data ++ '!' :: '=' :: ver.data), String.mk ['*']) = _
    rw [show String.mk (name.data ++ '!' :: '=' :: ver.data) = name ++ "!=" ++ ver by
          rw [show name ++ "!=" ++ ver = String.mk ((name ++ "!=" ++ ver).data) from rfl]
          rw [String.data_append, String.data_append,
            show ("!=" : String).data = ['!', '='] by decide, List.append_assoc]; rfl]

/-- C6 witness: the five operator cases at `req` / `1.0`. -/
theorem parse_dependency_operator_split_witness :
    parse_dependency ("req" ++ "==" ++ "1.0") = some ("req", "==" ++ "1.0") ∧
    parse_dependency ("req" ++ ">=" ++ "1.0") = some ("req", ">=" ++ "1.0") ∧
    parse_dependency ("req" ++ "<=" ++ "1.0") = some ("req", "<=" ++ "1.0") ∧
    parse_dependency ("req" ++ "~=" ++ "1.0") = some ("req" ++ "~=" ++ "1.0", "*") ∧
    parse_dependency ("req" ++ "!=" ++ "1.0") = some ("req" ++ "!=" ++ "1.0", "*") :=
  parse_dependency_operator_split "req" "1.0" (by decide) (by decide)

/-- C6 counterexample. The claim states that, absent a parenthesized
version, the parser splits at the first of the five operators `==`,
`>=`, `<=`, `~=`, `!=`; but the branch is guarded by a `contains`
check that tests only `==`, `>=` and `<=`, so a requirement whose
only operator is `~=` (or `!=`) is not split: the whole string
becomes the name and the spec defaults to `*`. -/
theorem parse_dependency_tilde_not_split :
    parse_dependency "req~=1.0" = some ("req~=1.0", "*") ∧
    parse_dependency "req~=1.0" ≠ some ("req", "~=1.0") := by
  refine ⟨rfl, by decide⟩


/-! ## C1: is_installed and the self-heal path -/

/-- C1 counterexample. The claim states that whenever the recorded
version fails to satisfy the spec the entry is removed and the
registry persisted before `false` is returned. On the code, a lookup
hit whose version does not satisfy returns `false` with the registry
unchanged and no save: the self-heal removal happens only in the
path-missing case. Here `a 1.0` is recorded, its path exists, and the
query spec is `==2.0`. -/
theorem is_installed_no_heal_on_version_mismatch :
    is_package_installed (fun _ => true) regA "a" "==2.0" =
      ⟨false, regA, false⟩ ∧
    ((is_package_installed (fun _ => true) regA "a" "==2.0").registry.packages.lookup "a").isSome = true ∧
    (is_package_installed (fun _ => true) regA "a" "==2.0").saved = false := by
  refine ⟨rfl, rfl, rfl⟩

/-- C1 amended: `is_package_installed` returns `true` iff the registry
contains the name, the recorded version satisfies the spec, and the
recorded `install_path` exists on disk; the entry is removed (all
bindings of the name) and the registry persisted exactly when the
version satisfies the spec but the path is missing; on a version
mismatch, or when the name is absent, the registry is left unchanged
and nothing is persisted. -/
theorem is_package_installed_spec (pathExists : String → Bool)
    (reg : PackageRegistry) (name version : String) :
    ((is_package_installed pathExists reg name version).result = true ↔
       ∃ ip, reg.packages.lookup name = some ip ∧
         version_satisfies ip.version version = true ∧
         pathExists ip.install_path = true) ∧
    (∀ ip, reg.packages.lookup name = some ip →
       version_satisfies ip.version version = true →
       pathExists ip.install_path = false →
       is_package_installed pathExists reg name version =
         ⟨false, ⟨reg.packages.filter (fun p => p.1 != name)⟩, true⟩) ∧
    (∀ ip, reg.packages.lookup name = some ip →
       version_satisfies ip.version version = false →
       is_package_installed pathExists reg name version = ⟨false, reg, false⟩) ∧
    (reg.packages.lookup name = none →
       is_package_installed pathExists reg name version = ⟨false, reg, false⟩) := by
  refine ⟨?_, ?_, ?_, ?_⟩
  · constructor
    · intro h
      unfold is_package_installed at h
      cases hl : reg.packages.lookup name with
      | none => rw [hl] at h; simp at h
      | some ip =>
        rw [hl] at h
        simp only [] at h
        by_cases hv : version_satisfies ip.version version = true
        · rw [if_pos hv] at h
          by_cases hp : pathExists ip.install_path = true
          · exact ⟨ip, rfl, hv, hp⟩
          · rw [if_neg hp] at h; simp at h
        · rw [if_neg hv] at h; simp at h
    · rintro ⟨ip, hl, hv, hp⟩
      unfold is_package_installed
      rw [hl]
      simp only []
      rw [if_pos hv, if_pos hp]
  · intro ip hl hv hp
    unfold is_package_installed
    rw [hl]
    simp only []
    rw [if_pos hv, if_neg (by rw [hp]; exact Bool.false_ne_true)]
  · intro ip hl hv
    unfold is_package_installed
    rw [hl]
    simp only []
    rw [if_neg (show ¬ version_satisfies ip.version version = true by
      rw [hv]; exact Bool.false_ne_true)]
  · intro hl
    unfold is_package_installed
    rw [hl]

/-- C1 witness: the three behaviours at the one-entry registry. -/
theorem is_package_installed_spec_witness :
    (is_package_installed (fun _ => true) regA "a" "==1.0").result = true ∧
    is_package_installed (fun _ => false) regA "a" "*" =
      ⟨false, ⟨[]⟩, true⟩ ∧
    is_package_installed (fun _ => true) regA "a" "==2.0" = ⟨false, regA, false⟩ := by
  refine ⟨(is_package_installed_spec (fun _ => true) regA "a" "==1.0").1.mpr
      ⟨⟨"a", "1.0", "/lib/a", 0⟩, rfl, rfl, rfl⟩,
    ?_, (is_package_installed_spec (fun _ => true) regA "a" "==2.0").2.2.1
      ⟨"a", "1.0", "/lib/a", 0⟩ rfl rfl⟩
  have h := (is_package_installed_spec (fun _ => false) regA "a" "*").2.1
    ⟨"a", "1.0", "/lib/a", 0⟩ rfl rfl rfl
  exact h


/-! ## C5: cache put / get round trip -/

/-- A successful association-list lookup yields a member pair. -/
theorem lookup_mem {β : Type} {l : List (String × β)} {k : String} {v : β}
    (h : l.lookup k = some v) : (k, v) ∈ l := by
  induction l with
  | nil => simp [List.lookup] at h
  | cons p rest ih =>
    rw [List.lookup] at h
    cases hb : k == p.1 with
    | true =>
      rw [hb] at h
      simp only [] at h
      have h1 : p.1 = k := (eq_of_beq hb).symm
      have h2 : p.2 = v := by cases h; rfl
      cases p with
      | mk a b =>
        simp only [] at h1 h2
        rw [← h1, ← h2]
        exact List.mem_cons_self (a, b) rest
    | false =>
      rw [hb] at h
      simp only [] at h
      exact List.mem_cons_of_mem p (ih h)

/-- An association-list lookup succeeds with the common value when
some binding for the key exists and all bindings agree. -/
theorem lookup_eq_of_all {β : Type} {l : List (String × β)} {k : String} {v : β}
    (hex : ∃ p ∈ l, p.1 = k) (hall : ∀ p ∈ l, p.1 = k → p.2 = v) :
    l.lookup k = some v := by
  induction l with
  | nil => simp at hex
  | cons p rest ih =>
    rw [List.lookup]
    cases hb : k == p.1 with
    | true =>
      simp only []
      rw [hall p (List.mem_cons_self p rest) (eq_of_beq hb).symm]
    | false =>
      simp only []
      refine ih ?_ (fun q hq hk => hall q (List.mem_cons_of_mem p hq) hk)
      rcases hex with ⟨q, hq, hk⟩
      rcases List.mem_cons.mp hq with h | h
      · exfalso
        subst h
        rw [beq_iff_eq.mpr hk.symm] at hb
        simp at hb
      · exact ⟨q, h, hk⟩

/-- Reads never change the disk tier. -/
theorem cacheGet_disk (k2 : String) (s : CacheState) :
    (cacheGet k2 s).2.disk = s.disk := by
  unfold cacheGet
  by_cases hbl : s.bloom.contains k2
  · rw [hbl]
    simp only [Bool.not_true, Bool.false_eq_true, if_false]
    cases hlg : lruGet k2 s.memory with
    | mk o mem2 =>
      cases o with
      | some v2 => rfl
      | none =>
        simp only []
        cases s.disk.lookup k2 with
        | some v2 => rfl
        | none => rfl
  · rw [show s.bloom.contains k2 = false from Bool.eq_false_iff.mpr hbl]
    rfl

/-- Reads never change the membership filter. -/
theorem cacheGet_bloom (k2 : String) (s : CacheState) :
    (cacheGet k2 s).2.bloom = s.bloom := by
  unfold cacheGet
  by_cases hbl : s.bloom.contains k2
  · rw [hbl]
    simp only [Bool.not_true, Bool.false_eq_true, if_false]
    cases hlg : lruGet k2 s.memory with
    | mk o mem2 =>
      cases o with
      | some v2 => rfl
      | none =>
        simp only []
        cases s.disk.lookup k2 with
        | some v2 => rfl
        | none => rfl
  · rw [show s.bloom.contains k2 = false from Bool.eq_false_iff.mpr hbl]
    rfl

/-- Every L1 entry after a read was already in L1, or is the read key
promoted with its L2 (or L1) value. -/
theorem cacheGet_memory_sub (k2 : String) (s : CacheState) :
    ∀ p ∈ (cacheGet k2 s).2.memory, p ∈ s.memory ∨
      (p.1 = k2 ∧ s.disk.lookup k2 = some p.2) ∨
      (p.1 = k2 ∧ s.memory.lookup k2 = some p.2) := by
  intro p hp
  unfold cacheGet at hp
  by_cases hbl : s.bloom.contains k2
  · rw [hbl] at hp
    simp only [Bool.not_true, Bool.false_eq_true, if_false] at hp
    cases hlg : lruGet k2 s.memory with
    | mk o mem2 =>
      rw [hlg] at hp
      cases o with
      | some v2 =>
        simp only [] at hp
        unfold lruGet at hlg
        cases hlk : s.memory.lookup k2 with
        | some v3 =>
          rw [hlk] at hlg
          simp only [] at hlg
          have hm2 : mem2 = (k2, v3) :: s.memory.filter (fun q => q.1 != k2) := by
            cases hlg
            rfl
          subst hm2
          rcases List.mem_cons.mp hp with h | h
          · subst h
            exact Or.inr (Or.inr ⟨rfl, rfl⟩)
          · exact Or.inl (List.mem_of_mem_filter h)
        | none =>
          rw [hlk] at hlg
          simp only [] at hlg
          exact absurd (congrArg Prod.fst hlg) (by simp)
      | none =>
        simp only [] at hp
        cases hdk : s.disk.lookup k2 with
        | some v2 =>
          rw [hdk] at hp
          simp only [] at hp
          unfold lruPut at hp
          have hp2 := List.mem_of_mem_take hp
          rcases List.mem_cons.mp hp2 with h | h
          · subst h
            exact Or.inr (Or.inl ⟨rfl, rfl⟩)
          · exact Or.inl (List.mem_of_mem_filter h)
        | none =>
          rw [hdk] at hp
          exact Or.inl hp
  · rw [show s.bloom.contains k2 = false from Bool.eq_false_iff.mpr hbl] at hp
    exact Or.inl hp

/-- One step of any operation other than `clear` and other than a
`put` to `k` preserves the key-`k` invariant: the disk holds `v` under
`k`, every L1 binding of `k` is `v`, and `k` is in the filter. -/
theorem cacheInv_step (k : String) (v : Bytes) (s : CacheState) (op : CacheOp)
    (hop : op ≠ .clearOp ∧ ∀ v2, op ≠ .putOp k v2)
    (hda : ∀ p ∈ s.disk, p.1 = k → p.2 = v)
    (hde : ∃ p ∈ s.disk, p.1 = k)
    (hma : ∀ p ∈ s.memory, p.1 = k → p.2 = v)
    (hb : k ∈ s.bloom) :
    (∀ p ∈ (cacheStep s op).disk, p.1 = k → p.2 = v) ∧
    (∃ p ∈ (cacheStep s op).disk, p.1 = k) ∧
    (∀ p ∈ (cacheStep s op).memory, p.1 = k → p.2 = v) ∧
    k ∈ (cacheStep s op).bloom := by
  cases op with
  | clearOp => exact absurd rfl hop.1
  | getOp k2 =>
    have hdisk : (cacheStep s (CacheOp.getOp k2)).disk = s.disk := cacheGet_disk k2 s
    have hbloom : (cacheStep s (CacheOp.getOp k2)).bloom = s.bloom := cacheGet_bloom k2 s
    rw [hdisk, hbloom]
    refine ⟨hda, hde, ?_, hb⟩
    intro p hp hpk
    rcases cacheGet_memory_sub k2 s p hp with h | ⟨hk2, hdl⟩ | ⟨hk2, hml⟩
    · exact hma p h hpk
    · have hkk : k2 = k := hk2.symm.trans hpk
      subst hkk
      exact hda (k2, p.2) (lookup_mem hdl) rfl
    · have hkk : k2 = k := hk2.symm.trans hpk
      subst hkk
      exact hma (k2, p.2) (lookup_mem hml) rfl
  | putOp k2 v2 =>
    have hk2 : k2 ≠ k := by
      intro he
      subst he
      exact (hop.2 v2) rfl
    show (∀ p ∈ (cachePut k2 v2 s).disk, _) ∧ _
    unfold cachePut diskInsert lruPut
    refine ⟨?_, ?_, ?_, List.mem_cons_of_mem k2 hb⟩
    · intro p hp hpk
      rcases List.mem_cons.mp hp with h | h
      · subst h
        exact absurd hpk hk2
      · exact hda p (List.mem_of_mem_filter h) hpk
    · rcases hde with ⟨p, hp, hpk⟩
      refine ⟨p, List.mem_cons_of_mem _ ?_, hpk⟩
      rw [List.mem_filter]
      refine ⟨hp, ?_⟩
      rw [hpk]
      exact bne_iff_ne.mpr (Ne.symm hk2)
    · intro p hp hpk
      have hp2 := List.mem_of_mem_take hp
      rcases List.mem_cons.mp hp2 with h | h
      · subst h
        exact absurd hpk hk2
      · exact hma p (List.mem_of_mem_filter h) hpk

/-- The key-`k` invariant is preserved along any run without `clear`
and without a `put` to `k`. -/
theorem cacheInv_run (k : String) (v : Bytes) : ∀ (ops : List CacheOp) (s : CacheState),
    (∀ op ∈ ops, op ≠ .clearOp ∧ ∀ v2, op ≠ .putOp k v2) →
    (∀ p ∈ s.disk, p.1 = k → p.2 = v) →
    (∃ p ∈ s.disk, p.1 = k) →
    (∀ p ∈ s.memory, p.1 = k → p.2 = v) →
    k ∈ s.bloom →
    (∀ p ∈ (cacheRun s ops).disk, p.1 = k → p.2 = v) ∧
    (∃ p ∈ (cacheRun s ops).disk, p.1 = k) ∧
    (∀ p ∈ (cacheRun s ops).memory, p.1 = k → p.2 = v) ∧
    k ∈ (cacheRun s ops).bloom := by
  intro ops
  induction ops with
  | nil => exact fun s _ hda hde hma hb => ⟨hda, hde, hma, hb⟩
  | cons op rest ih =>
    intro s hops hda hde hma hb
    have h1 := cacheInv_step k v s op (hops op (List.mem_cons_self op rest)) hda hde hma hb
    exact ih (cacheStep s op) (fun o ho => hops o (List.mem_cons_of_mem op ho))
      h1.1 h1.2.1 h1.2.2.1 h1.2.2.2

/-- Exact-set membership gives a positive `contains` check. -/
theorem bloom_contains_of_mem {l : List String} {k : String} (h : k ∈ l) :
    l.contains k = true :=
  List.elem_eq_true_of_mem h

/-- Under the key-`k` invariant, `get k` returns `v` (from L1, or
from L2 after eviction). -/
theorem cacheGet_of_inv (k : String) (v : Bytes) (s : CacheState)
    (hda : ∀ p ∈ s.disk, p.1 = k → p.2 = v)
    (hde : ∃ p ∈ s.disk, p.1 = k)
    (hma : ∀ p ∈ s.memory, p.1 = k → p.2 = v)
    (hb : k ∈ s.bloom) :
    (cacheGet k s).1 = some v := by
  unfold cacheGet
  rw [bloom_contains_of_mem hb]
  simp only [Bool.not_true, Bool.false_eq_true, if_false]
  cases hlg : lruGet k s.memory with
  | mk o mem2 =>
    cases o with
    | some v2 =>
      simp only []
      unfold lruGet at hlg
      cases hlk : s.memory.lookup k with
      | some v3 =>
        rw [hlk] at hlg
        simp only [] at hlg
        have hv : v3 = v2 := by
          have h1 := congrArg Prod.fst hlg
          simpa using h1
        subst hv
        exact congrArg some (hma (k, v3) (lookup_mem hlk) rfl)
      | none =>
        rw [hlk] at hlg
        simp only [] at hlg
        exact absurd (congrArg Prod.fst hlg) (by simp)
    | none =>
      simp only []
      have hdl : s.disk.lookup k = some v := lookup_eq_of_all hde hda
      rw [hdl]

/-- C5: after a successful `put(k, v)`, any sequence of further
operations containing no `clear` and no overwrite of `k` leaves the
cache returning exactly `v` for `get(k)` — the value survives L1 LRU
eviction through the L2 tier — and `k` is a member of the membership
filter (no false negative for an inserted key; the filter is modelled
as the exact set of inserted keys, which is the direction the bloom
filter guarantees). -/
theorem cache_put_then_get (s0 : CacheState) (k : String) (v : Bytes)
    (ops : List CacheOp)
    (hops : ∀ op ∈ ops, op ≠ .clearOp ∧ ∀ v2, op ≠ .putOp k v2) :
    (cacheGet k (cacheRun (cachePut k v s0) ops)).1 = some v ∧
    k ∈ (cacheRun (cachePut k v s0) ops).bloom := by
  have h0da : ∀ p ∈ (cachePut k v s0).disk, p.1 = k → p.2 = v := by
    intro p hp hpk
    unfold cachePut diskInsert at hp
    rcases List.mem_cons.mp hp with h | h
    · subst h
      rfl
    · exfalso
      have := List.mem_filter.mp h
      rw [hpk] at this
      simp at this
  have h0de : ∃ p ∈ (cachePut k v s0).disk, p.1 = k :=
    ⟨(k, v), List.mem_cons_self _ _, rfl⟩
  have h0ma : ∀ p ∈ (cachePut k v s0).memory, p.1 = k → p.2 = v := by
    intro p hp hpk
    unfold cachePut lruPut at hp
    have hp2 := List.mem_of_mem_take hp
    rcases List.mem_cons.mp hp2 with h | h
    · subst h
      rfl
    · exfalso
      have := List.mem_filter.mp h
      rw [hpk] at this
      simp at this
  have h0b : k ∈ (cachePut k v s0).bloom := List.mem_cons_self _ _
  have h := cacheInv_run k v ops (cachePut k v s0) hops h0da h0de h0ma h0b
  exact ⟨cacheGet_of_inv k v _ h.1 h.2.1 h.2.2.1 h.2.2.2, h.2.2.2⟩

/-- C5 witness: a concrete run with an intervening read of `k`, reads
of other keys and a put to another key. -/
theorem cache_put_then_get_witness :
    (cacheGet "k" (cacheRun (cachePut "k" [1, 2] emptyCache)
       [.getOp "x", .putOp "y" [3], .getOp "k", .getOp "y"])).1 = some [1, 2] ∧
    "k" ∈ (cacheRun (cachePut "k" [1, 2] emptyCache)
       [.getOp "x", .putOp "y" [3], .getOp "k", .getOp "y"]).bloom :=
  cache_put_then_get emptyCache "k" [1, 2]
    [.getOp "x", .putOp "y" [3], .getOp "k", .getOp "y"] (by
      intro op hop
      simp only [List.mem_cons, List.not_mem_nil, or_false] at hop
      rcases hop with rfl | rfl | rfl | rfl
      · exact ⟨by decide, fun v2 h => CacheOp.noConfusion h⟩
      · refine ⟨by decide, fun v2 h => ?_⟩
        injection h with h1 h2
        exact absurd h1 (by decide)
      · exact ⟨by decide, fun v2 h => CacheOp.noConfusion h⟩
      · exact ⟨by decide, fun v2 h => CacheOp.noConfusion h⟩)


/-! ## C9: transparent repair of a corrupt metadata cache entry -/

/-- A `put` establishes the key invariant used by the cache
theorems. -/
theorem cachePut_inv (s0 : CacheState) (k : String) (v : Bytes) :
    (∀ p ∈ (cachePut k v s0).disk, p.1 = k → p.2 = v) ∧
    (∃ p ∈ (cachePut k v s0).disk, p.1 = k) ∧
    (∀ p ∈ (cachePut k v s0).memory, p.1 = k → p.2 = v) ∧
    k ∈ (cachePut k v s0).bloom := by
  refine ⟨?_, ⟨(k, v), List.mem_cons_self _ _, rfl⟩, ?_, List.mem_cons_self _ _⟩
  · intro p hp hpk
    unfold cachePut diskInsert at hp
    rcases List.mem_cons.mp hp with h | h
    · subst h
      rfl
    · exfalso
      have := List.mem_filter.mp h
      rw [hpk] at this
      simp at this
  · intro p hp hpk
    unfold cachePut lruPut at hp
    have hp2 := List.mem_of_mem_take hp
    rcases List.mem_cons.mp hp2 with h | h
    · subst h
      rfl
    · exfalso
      have := List.mem_filter.mp h
      rw [hpk] at this
      simp at this

/-- C9: when the cached bytes under the metadata key fail to
deserialize into a `Package`, `fetch_package_metadata` does not error
for that reason: it fetches from the remote index and, on success,
overwrites the cache entry with the freshly serialized package —
after the call, a read of the metadata key returns the new bytes. -/
theorem fetch_metadata_repairs_corrupt_cache
    (client : String → String → Except CobraError Package)
    (deser : Bytes → Option Package) (ser : Package → Bytes)
    (s s1 : CacheState) (name spec : String) (data : Bytes) (pkg : Package)
    (hget : cacheGet (metadata_cache_key name spec) s = (some data, s1))
    (hcorrupt : deser data = none)
    (hclient : client name spec = .ok pkg) :
    fetch_package_metadata client deser ser s name spec =
      .ok (pkg, cachePut (metadata_cache_key name spec) (ser pkg) s1) ∧
    (cacheGet (metadata_cache_key name spec)
       (cachePut (metadata_cache_key name spec) (ser pkg) s1)).1 = some (ser pkg) := by
  constructor
  · unfold fetch_package_metadata
    simp only [hget, hcorrupt, hclient]
  · have h := cachePut_inv s1 (metadata_cache_key name spec) (ser pkg)
    exact cacheGet_of_inv _ _ _ h.1 h.2.1 h.2.2.1 h.2.2.2

/-- C9 witness: a concrete cache holding undeserializable bytes `[9]`
under the metadata key is repaired to the fresh serialization
`[5]`. -/
theorem fetch_metadata_repairs_witness :
    fetch_package_metadata (fun _ _ => .ok pkgB) (fun _ => none) (fun _ => [5])
      (cachePut (metadata_cache_key "a" "*") [9] emptyCache) "a" "*" =
      .ok (pkgB, cachePut (metadata_cache_key "a" "*") [5]
        ⟨[(metadata_cache_key "a" "*", [9])], [(metadata_cache_key "a" "*", [9])],
         [metadata_cache_key "a" "*"], 1, 0⟩) ∧
    (cacheGet (metadata_cache_key "a" "*")
       (cachePut (metadata_cache_key "a" "*") [5]
         ⟨[(metadata_cache_key "a" "*", [9])], [(metadata_cache_key "a" "*", [9])],
          [metadata_cache_key "a" "*"], 1, 0⟩)).1 = some [5] :=
  fetch_metadata_repairs_corrupt_cache (fun _ _ => .ok pkgB) (fun _ => none)
    (fun _ => [5]) (cachePut (metadata_cache_key "a" "*") [9] emptyCache)
    ⟨[(metadata_cache_key "a" "*", [9])], [(metadata_cache_key "a" "*", [9])],
     [metadata_cache_key "a" "*"], 1, 0⟩
    "a" "*" [9] pkgB (by decide) rfl rfl

/-! ## C2 and C7: resolver ordering and cycle detection

First the toposort soundness: an `Ok` run of the modelled petgraph
toposort yields a complete, duplicate-free node order in which every
edge points from later to earlier positions of the reversed output
(the orientation of the final plan). -/

/-- Membership in the neighbor list is exactly edge membership. -/
theorem mem_neighbors {g : RGraph} {u v : Nat} :
    v ∈ neighbors g u ↔ (u, v) ∈ g.edges := by
  unfold neighbors
  rw [List.mem_reverse, List.mem_map]
  constructor
  · rintro ⟨e, he, rfl⟩
    have h1 := List.mem_filter.mp he
    have h2 : e.1 = u := by simpa using h1.2
    have : e = (u, e.2) := by
      cases e
      simp only [] at h2 ⊢
      rw [h2]
    rw [← this]
    exact h1.1
  · intro h
    exact ⟨(u, v), List.mem_filter.mpr ⟨h, by simp⟩, rfl⟩

/-- Soundness of the toposort loop: from any state satisfying the
loop invariant, an `Ok` result lists every node exactly once, and the
reversed output (dependencies-first orientation) places every
successor of a node at a strictly lower index. -/
theorem topoLoop_sound (g : RGraph)
    (hed : ∀ e ∈ g.edges, e.1 < g.nodes.length ∧ e.2 < g.nodes.length) :
    ∀ (fuel i : Nat) (ts : TState) (out : List Nat),
    TopoInv g i ts → topoLoop g fuel i ts = some (.ok out) →
    (∀ t, t < g.nodes.length → t ∈ out.reverse) ∧
    out.reverse.Nodup ∧
    (∀ x ∈ out.reverse, x < g.nodes.length) ∧
    finOrdered g out.reverse := by
  intro fuel
  induction fuel with
  | zero =>
    intro i ts out _ h
    exact absurd h (by simp [topoLoop])
  | succ fuel ih =>
    intro i ts out hinv hrun
    rw [topoLoop] at hrun
    cases hstk : ts.stack with
    | nil =>
      rw [hstk] at hrun
      simp only [] at hrun
      by_cases hi : i < g.nodes.length
      · rw [if_pos hi] at hrun
        by_cases hd : i ∈ ts.discovered
        · rw [if_pos hd] at hrun
          refine ih (i + 1) ts out ⟨hinv.fin_mem, hinv.fs_nodup, hinv.fs_ord,
            hinv.disc_fin, ?_, hinv.stack_bound, hinv.fs_bound⟩ hrun
          intro t ht
          rcases Nat.lt_succ_iff_lt_or_eq.mp ht with h | h
          · exact hinv.below_disc t h
          · subst h
            exact Or.inl hd
        · rw [if_neg hd] at hrun
          refine ih (i + 1) { ts with stack := [i] } out
            ⟨hinv.fin_mem, hinv.fs_nodup, hinv.fs_ord, ?_, ?_, ?_, hinv.fs_bound⟩ hrun
          · intro x hx
            rcases hinv.disc_fin x hx with h | h
            · exact Or.inl h
            · rw [hstk] at h
              simp at h
          · intro t ht
            rcases Nat.lt_succ_iff_lt_or_eq.mp ht with h | h
            · rcases hinv.below_disc t h with h2 | h2
              · exact Or.inl h2
              · rw [hstk] at h2
                simp at h2
            · subst h
              exact Or.inr (List.mem_cons_self t [])
          · intro x hx
            simp only [List.mem_cons, List.not_mem_nil, or_false] at hx
            subst hx
            exact hi
      · rw [if_neg hi] at hrun
        have hout : out = ts.finishStack.reverse := by
          cases hrun
          rfl
        subst hout
        rw [List.reverse_reverse]
        refine ⟨?_, hinv.fs_nodup, hinv.fs_bound, hinv.fs_ord⟩
        intro t ht
        have h1 : t < i := Nat.lt_of_lt_of_le ht (Nat.le_of_not_lt hi)
        rcases hinv.below_disc t h1 with h2 | h2
        · rcases hinv.disc_fin t h2 with h3 | h3
          · exact (hinv.fin_mem t).mp h3
          · rw [hstk] at h3
            simp at h3
        · rw [hstk] at h2
          simp at h2
    | cons nx rest =>
      rw [hstk] at hrun
      simp only [] at hrun
      have hnx_stack : nx ∈ ts.stack := by
        rw [hstk]
        exact List.mem_cons_self nx rest
      by_cases hd : nx ∈ ts.discovered
      · rw [if_pos hd] at hrun
        by_cases hf : nx ∈ ts.finished
        · rw [if_pos hf] at hrun
          refine ih i { ts with stack := rest } out
            ⟨hinv.fin_mem, hinv.fs_nodup, hinv.fs_ord, ?_, ?_, ?_, hinv.fs_bound⟩ hrun
          · intro x hx
            rcases hinv.disc_fin x hx with h | h
            · exact Or.inl h
            · rw [hstk] at h
              rcases List.mem_cons.mp h with h2 | h2
              · subst h2
                exact Or.inl hf
              · exact Or.inr h2
          · intro t ht
            rcases hinv.below_disc t ht with h | h
            · exact Or.inl h
            · rw [hstk] at h
              rcases List.mem_cons.mp h with h2 | h2
              · subst h2
                exact Or.inl hd
              · exact Or.inr h2
          · intro x hx
            refine hinv.stack_bound x ?_
            rw [hstk]
            exact List.mem_cons_of_mem nx hx
        · rw [if_neg hf] at hrun
          by_cases hall : (neighbors g nx).all (fun s => decide (s ∈ ts.finished)) = true
          · rw [if_pos hall] at hrun
            have hnall : ∀ s ∈ neighbors g nx, s ∈ ts.finished := by
              intro s hs
              have := List.all_eq_true.mp hall s hs
              exact of_decide_eq_true this
            refine ih i
              { ts with stack := rest, finished := nx :: ts.finished,
                        finishStack := ts.finishStack ++ [nx] } out
              ⟨?_, ?_, ?_, ?_, ?_, ?_, ?_⟩ hrun
            · intro x
              constructor
              · intro hx
                rcases List.mem_cons.mp hx with h | h
                · subst h
                  exact List.mem_append_right _ (List.mem_cons_self x [])
                · exact List.mem_append_left _ ((hinv.fin_mem x).mp h)
              · intro hx
                rcases List.mem_append.mp hx with h | h
                · exact List.mem_cons_of_mem nx ((hinv.fin_mem x).mpr h)
                · simp only [List.mem_cons, List.not_mem_nil, or_false] at h
                  subst h
                  exact List.mem_cons_self x _
            · rw [List.nodup_append]
              refine ⟨hinv.fs_nodup, List.nodup_singleton nx, ?_⟩
              intro y hy
              simp only [List.mem_singleton]
              intro he
              subst he
              exact hf ((hinv.fin_mem y).mpr hy)
            · intro idx hidx s hs
              rcases Nat.lt_succ_iff_lt_or_eq.mp (by simpa using hidx) with h | h
              · rw [List.get_append idx h] at hs
                rcases hinv.fs_ord idx h s hs with ⟨j, hj, hji, hjs⟩
                refine ⟨j, ?_, hji, ?_⟩
                · simp only [List.length_append, List.length_cons, List.length_nil]
                  omega
                · rw [List.get_append j hj]
                  exact hjs
              · have hget : (ts.finishStack ++ [nx]).get ⟨idx, hidx⟩ = nx := by
                  have := List.getElem_concat_length ts.finishStack nx idx h hidx
                  simpa [List.get_eq_getElem] using this
                rw [hget] at hs
                have hs2 := hnall s hs
                have hs3 : s ∈ ts.finishStack := (hinv.fin_mem s).mp hs2
                rcases List.mem_iff_get.mp hs3 with ⟨⟨j, hj⟩, hjs⟩
                refine ⟨j, ?_, ?_, ?_⟩
                · simp only [List.length_append, List.length_cons, List.length_nil]
                  omega
                · omega
                · rw [List.get_append j hj]
                  exact hjs
            · intro x hx
              rcases hinv.disc_fin x hx with h | h
              · exact Or.inl (List.mem_cons_of_mem nx h)
              · rw [hstk] at h
                rcases List.mem_cons.mp h with h2 | h2
                · subst h2
                  exact Or.inl (List.mem_cons_self x _)
                · exact Or.inr h2
            · intro t ht
              rcases hinv.below_disc t ht with h | h
              · exact Or.inl h
              · rw [hstk] at h
                rcases List.mem_cons.mp h with h2 | h2
                · subst h2
                  exact Or.inl hd
                · exact Or.inr h2
            · intro x hx
              refine hinv.stack_bound x ?_
              rw [hstk]
              exact List.mem_cons_of_mem nx hx
            · intro x hx
              rcases List.mem_append.mp hx with h | h
              · exact hinv.fs_bound x h
              · simp only [List.mem_cons, List.not_mem_nil, or_false] at h
                subst h
                exact hinv.stack_bound x hnx_stack
          · rw [if_neg hall] at hrun
            exact absurd hrun (by simp)
      · rw [if_neg hd] at hrun
        by_cases hself : nx ∈ neighbors g nx
        · rw [if_pos hself] at hrun
          exact absurd hrun (by simp)
        · rw [if_neg hself] at hrun
          refine ih i
            { ts with discovered := nx :: ts.discovered,
                      stack := ((neighbors g nx).filter
                        (fun s => decide (s ∉ nx :: ts.discovered))).reverse ++ nx :: rest } out
            ⟨hinv.fin_mem, hinv.fs_nodup, hinv.fs_ord, ?_, ?_, ?_, hinv.fs_bound⟩ hrun
          · intro x hx
            rcases List.mem_cons.mp hx with h | h
            · subst h
              exact Or.inr (List.mem_append_right _ (List.mem_cons_self x rest))
            · rcases hinv.disc_fin x h with h2 | h2
              · exact Or.inl h2
              · rw [hstk] at h2
                exact Or.inr (List.mem_append_right _ h2)
          · intro t ht
            rcases hinv.below_disc t ht with h | h
            · exact Or.inl (List.mem_cons_of_mem nx h)
            · rw [hstk] at h
              exact Or.inr (List.mem_append_right _ h)
          · intro x hx
            rcases List.mem_append.mp hx with h | h
            · rw [List.mem_reverse] at h
              have h2 := List.mem_of_mem_filter h
              exact (hed (nx, x) (mem_neighbors.mp h2)).2
            · refine hinv.stack_bound x ?_
              rw [hstk]
              exact h

/-- Lookup hits the fresh head binding. -/
theorem lookup_cons_self {β : Type} (k : String) (v : β) (l : List (String × β)) :
    ((k, v) :: l).lookup k = some v := by
  rw [List.lookup]
  simp

/-- Lookup skips a head binding for a different key. -/
theorem lookup_cons_ne {β : Type} {k k0 : String} (v0 : β) (l : List (String × β))
    (hne : k ≠ k0) : ((k0, v0) :: l).lookup k = l.lookup k := by
  rw [List.lookup]
  rw [show (k == k0) = false from beq_eq_false_iff_ne.mpr hne]

/-- In-bounds indices yield some element. -/
theorem get?_lt_isSome {α : Type} {l : List α} {n : Nat} (h : n < l.length) :
    ∃ a, l.get? n = some a :=
  ⟨l.get ⟨n, h⟩, List.get?_eq_get h⟩

/-- A successful index is in bounds. -/
theorem get?_some_lt {α : Type} {l : List α} {n : Nat} {a : α}
    (h : l.get? n = some a) : n < l.length := by
  by_contra hn
  rw [List.get?_eq_none.mpr (Nat.le_of_not_lt hn)] at h
  cases h

/-- A successfully indexed element is a member. -/
theorem get?_some_mem {α : Type} {l : List α} {n : Nat} {a : α}
    (h : l.get? n = some a) : a ∈ l :=
  List.get?_mem h

/-- Branch equation of `addDepEdge` when the dependency key already
has a node. -/
theorem addDepEdge_eq_present (parentKey : String) (st : RState) (d : Package)
    {ni nd : Nat}
    (hni : st.nodeMap.lookup parentKey = some ni)
    (hnd : st.nodeMap.lookup (pkgKey d) = some nd) :
    addDepEdge parentKey st d =
      { st with graph := { st.graph with edges := st.graph.edges ++ [(ni, nd)] } } := by
  unfold addDepEdge
  simp only [hni, hnd, Option.isSome_some, if_true, ite_true]

/-- Branch equation of `addDepEdge` when the dependency key is new:
node, map, package and worklist entries are added before the edge. -/
theorem addDepEdge_eq_fresh (parentKey : String) (st : RState) (d : Package)
    {ni : Nat}
    (hni : st.nodeMap.lookup parentKey = some ni)
    (hdkf : st.nodeMap.lookup (pkgKey d) = none)
    (hpne : parentKey ≠ pkgKey d) :
    addDepEdge parentKey st d =
      { graph := ⟨st.graph.nodes ++ [pkgKey d],
          st.graph.edges ++ [(ni, st.graph.nodes.length)]⟩,
        nodeMap := (pkgKey d, st.graph.nodes.length) :: st.nodeMap,
        allPackages := (pkgKey d, d) :: st.allPackages,
        toProcess := d :: st.toProcess,
        processed := st.processed } := by
  have hlc : List.lookup parentKey ((pkgKey d, st.graph.nodes.length) :: st.nodeMap) =
      some ni := by
    rw [lookup_cons_ne _ _ hpne]
    exact hni
  unfold addDepEdge
  simp only [hdkf, Option.isSome_none, Bool.false_eq_true, if_false, ite_false,
    addNode, hlc, lookup_cons_self]

/-- One `addDepEdge` preserves the expansion invariant, is monotone,
leaves the processed set alone, preserves node-label distinctness,
extends the worklist only by the dependency, and materializes the
parent-to-dependency edge. -/
theorem addDepEdge_sound (parentKey : String) (st : RState) (d : Package)
    (hinv : RInv st) (hp : parentKey ∈ st.graph.nodes) :
    RInv (addDepEdge parentKey st d) ∧
    rMono st (addDepEdge parentKey st d) ∧
    (∀ p ∈ st.toProcess, p ∈ (addDepEdge parentKey st d).toProcess) ∧
    (addDepEdge parentKey st d).processed = st.processed ∧
    (st.graph.nodes.Nodup → (addDepEdge parentKey st d).graph.nodes.Nodup) ∧
    (∀ p ∈ (addDepEdge parentKey st d).toProcess, p ∈ st.toProcess ∨ p = d) ∧
    (∃ ni nd, (addDepEdge parentKey st d).nodeMap.lookup parentKey = some ni ∧
      (addDepEdge parentKey st d).nodeMap.lookup (pkgKey d) = some nd ∧
      (ni, nd) ∈ (addDepEdge parentKey st d).graph.edges) := by
  have hpn : (st.nodeMap.lookup parentKey).isSome := hinv.nodes_map parentKey hp
  rcases Option.isSome_iff_exists.mp hpn with ⟨ni, hni⟩
  by_cases hdk : (st.nodeMap.lookup (pkgKey d)).isSome
  · rcases Option.isSome_iff_exists.mp hdk with ⟨nd, hnd⟩
    rw [addDepEdge_eq_present parentKey st d hni hnd]
    refine ⟨⟨hinv.map_nodes, hinv.nodes_map, hinv.pkg_at, hinv.node_pkg,
        hinv.toProc_pkg, hinv.processed_nodes, hinv.nodes_cover, ?_⟩,
      ⟨fun k n h => h, fun e he => List.mem_append_left _ he,
        fun k _ => rfl, fun k h => h⟩,
      fun p h => h, rfl, fun h => h, fun p h => Or.inl h,
      ⟨ni, nd, hni, hnd, List.mem_append_right _ (List.mem_cons_self _ _)⟩⟩
    intro e he
    rcases List.mem_append.mp he with h | h
    · exact hinv.edges_bound e h
    · simp only [List.mem_cons, List.not_mem_nil, or_false] at h
      subst h
      exact ⟨get?_some_lt (hinv.map_nodes parentKey ni hni),
        get?_some_lt (hinv.map_nodes (pkgKey d) nd hnd)⟩
  · have hdkf : st.nodeMap.lookup (pkgKey d) = none :=
      Option.not_isSome_iff_eq_none.mp hdk
    have hfresh : pkgKey d ∉ st.graph.nodes := by
      intro h
      exact hdk (hinv.nodes_map _ h)
    have hpne : parentKey ≠ pkgKey d := by
      intro h
      rw [h] at hp
      exact hfresh hp
    rw [addDepEdge_eq_fresh parentKey st d hni hdkf hpne]
    have hnilt : ni < st.graph.nodes.length :=
      get?_some_lt (hinv.map_nodes parentKey ni hni)
    refine ⟨⟨?_, ?_, ?_, ?_, ?_, ?_, ?_, ?_⟩,
      ⟨?_, fun e he => List.mem_append_left _ he, ?_, fun k h => List.mem_append_left _ h⟩,
      fun p h => List.mem_cons_of_mem d h, rfl, ?_, ?_,
      ⟨ni, st.graph.nodes.length, ?_, lookup_cons_self _ _ _,
        List.mem_append_right _ (List.mem_cons_self _ _)⟩⟩
    · -- map_nodes
      intro k n h
      by_cases hk : k = pkgKey d
      · subst hk
        rw [lookup_cons_self] at h
        cases h
        exact List.get?_concat_length _ _
      · rw [lookup_cons_ne _ _ hk] at h
        have h2 := hinv.map_nodes k n h
        rw [List.get?_append (get?_some_lt h2)]
        exact h2
    · -- nodes_map
      intro k hk
      rcases List.mem_append.mp hk with h | h
      · by_cases hke : k = pkgKey d
        · subst hke
          rw [lookup_cons_self]
          rfl
        · rw [lookup_cons_ne _ _ hke]
          exact hinv.nodes_map k h
      · simp only [List.mem_cons, List.not_mem_nil, or_false] at h
        subst h
        rw [lookup_cons_self]
        rfl
    · -- pkg_at
      intro k p h
      by_cases hke : k = pkgKey d
      · subst hke
        rw [lookup_cons_self] at h
        cases h
        rfl
      · rw [lookup_cons_ne _ _ hke] at h
        exact hinv.pkg_at k p h
    · -- node_pkg
      intro k hk
      rcases List.mem_append.mp hk with h | h
      · by_cases hke : k = pkgKey d
        · subst hke
          rw [lookup_cons_self]
          rfl
        · rw [lookup_cons_ne _ _ hke]
          exact hinv.node_pkg k h
      · simp only [List.mem_cons, List.not_mem_nil, or_false] at h
        subst h
        rw [lookup_cons_self]
        rfl
    · -- toProc_pkg
      intro p hp2
      rcases List.mem_cons.mp hp2 with h | h
      · subst h
        rw [lookup_cons_self]
        exact ⟨rfl, List.mem_append_right _ (List.mem_cons_self _ _)⟩
      · have h2 := hinv.toProc_pkg p h
        have hke : pkgKey p ≠ pkgKey d := by
          intro he
          rw [he] at h2
          exact hfresh h2.2
        rw [lookup_cons_ne _ _ hke]
        exact ⟨h2.1, List.mem_append_left _ h2.2⟩
    · -- processed_nodes
      intro k hk
      exact List.mem_append_left _ (hinv.processed_nodes k hk)
    · -- nodes_cover
      intro k hk
      rcases List.mem_append.mp hk with h | h
      · rcases hinv.nodes_cover k h with h2 | ⟨p, hp2, hpk⟩
        · exact Or.inl h2
        · exact Or.inr ⟨p, List.mem_cons_of_mem d hp2, hpk⟩
      · simp only [List.mem_cons, List.not_mem_nil, or_false] at h
        subst h
        exact Or.inr ⟨d, List.mem_cons_self d _, rfl⟩
    · -- edges_bound
      intro e he
      rcases List.mem_append.mp he with h | h
      · have h2 := hinv.edges_bound e h
        simp only [List.length_append, List.length_cons, List.length_nil]
        omega
      · simp only [List.mem_cons, List.not_mem_nil, or_false] at h
        subst h
        refine ⟨?_, ?_⟩ <;>
          simp only [List.length_append, List.length_cons, List.length_nil] <;>
          omega
    · -- rMono nodeMap
      intro k n h
      have hke : k ≠ pkgKey d := by
        intro he
        subst he
        rw [hdkf] at h
        cases h
      rw [lookup_cons_ne _ _ hke]
      exact h
    · -- rMono allPackages
      intro k hk
      have hke : k ≠ pkgKey d := by
        intro he
        subst he
        exact hdk hk
      rw [lookup_cons_ne _ _ hke]
    · -- nodup preservation
      intro hnd
      rw [List.nodup_append]
      refine ⟨hnd, List.nodup_singleton _, ?_⟩
      intro y hy
      simp only [List.mem_singleton]
      intro he
      subst he
      exact hfresh hy
    · -- toProcess characterization
      intro p hp2
      rcases List.mem_cons.mp hp2 with h | h
      · exact Or.inr h
      · exact Or.inl h
    · -- parent lookup in new map
      rw [lookup_cons_ne _ _ hpne]
      exact hni

/-- Monotonicity is reflexive. -/
theorem rMono_refl (st : RState) : rMono st st :=
  ⟨fun _ _ h => h, fun _ h => h, fun _ _ => rfl, fun _ h => h⟩

/-- Monotonicity composes. -/
theorem rMono_trans {s1 s2 s3 : RState} (h12 : rMono s1 s2) (h23 : rMono s2 s3) :
    rMono s1 s3 := by
  refine ⟨fun k n h => h23.1 k n (h12.1 k n h),
    fun e he => h23.2.1 e (h12.2.1 e he), ?_, fun k h => h23.2.2.2 k (h12.2.2.2 k h)⟩
  intro k hk
  have h2 := h12.2.2.1 k hk
  have hk2 : (s2.nodeMap.lookup k).isSome := by
    rcases Option.isSome_iff_exists.mp hk with ⟨n, hn⟩
    rw [h12.1 k n hn]
    rfl
  rw [h23.2.2.1 k hk2, h2]

/-- A successful `fetchAll` relates inputs to outputs pointwise. -/
theorem fetchAll_forall2 (f : String → String → Except CobraError Package) :
    ∀ (ds : List Dependency) (ps : List Package), fetchAll f ds = .ok ps →
    List.Forall₂ (fun dep d => f dep.name dep.version_spec = .ok d) ds ps := by
  intro ds
  induction ds with
  | nil =>
    intro ps h
    rw [fetchAll] at h
    cases h
    exact List.Forall₂.nil
  | cons dep rest ih =>
    intro ps h
    rw [fetchAll] at h
    cases hf : f dep.name dep.version_spec with
    | error e =>
      rw [hf] at h
      cases h
    | ok p =>
      rw [hf] at h
      simp only [] at h
      cases hr : fetchAll f rest with
      | error e =>
        rw [hr] at h
        cases h
      | ok ps2 =>
        rw [hr] at h
        simp only [] at h
        cases h
        exact List.Forall₂.cons hf (ih ps2 hr)

/-- Pointwise-related lists cover every left element by some right
element. -/
theorem forall2_exists_right {α β : Type} {r : α → β → Prop}
    {l1 : List α} {l2 : List β} (h : List.Forall₂ r l1 l2) :
    ∀ a ∈ l1, ∃ b ∈ l2, r a b := by
  induction h with
  | nil => intro a ha; simp at ha
  | cons hr _ ih =>
    intro a ha
    rcases List.mem_cons.mp ha with h2 | h2
    · subst h2
      exact ⟨_, List.mem_cons_self _ _, hr⟩
    · rcases ih a h2 with ⟨b, hb, hrb⟩
      exact ⟨b, List.mem_cons_of_mem _ hb, hrb⟩

/-- Folding `addDepEdge` over the fetched dependencies preserves the
invariant and materializes one edge per dependency. -/
theorem foldl_addDepEdge_sound (parentKey : String) :
    ∀ (ds : List Package) (st : RState),
    RInv st → parentKey ∈ st.graph.nodes →
    RInv (ds.foldl (addDepEdge parentKey) st) ∧
    rMono st (ds.foldl (addDepEdge parentKey) st) ∧
    (ds.foldl (addDepEdge parentKey) st).processed = st.processed ∧
    (st.graph.nodes.Nodup → (ds.foldl (addDepEdge parentKey) st).graph.nodes.Nodup) ∧
    (∀ p ∈ (ds.foldl (addDepEdge parentKey) st).toProcess,
      p ∈ st.toProcess ∨ p ∈ ds) ∧
    (∀ d ∈ ds, ∃ ni nd,
      (ds.foldl (addDepEdge parentKey) st).nodeMap.lookup parentKey = some ni ∧
      (ds.foldl (addDepEdge parentKey) st).nodeMap.lookup (pkgKey d) = some nd ∧
      (ni, nd) ∈ (ds.foldl (addDepEdge parentKey) st).graph.edges) := by
  intro ds
  induction ds with
  | nil =>
    intro st hinv hp
    exact ⟨hinv, rMono_refl st, rfl, fun h => h, fun p h => Or.inl h,
      fun d h => absurd h (List.not_mem_nil d)⟩
  | cons d rest ih =>
    intro st hinv hp
    have h1 := addDepEdge_sound parentKey st d hinv hp
    have hp2 : parentKey ∈ (addDepEdge parentKey st d).graph.nodes :=
      h1.2.1.2.2.2 parentKey hp
    have h2 := ih (addDepEdge parentKey st d) h1.1 hp2
    rw [List.foldl_cons]
    refine ⟨h2.1, rMono_trans h1.2.1 h2.2.1, ?_, ?_, ?_, ?_⟩
    · rw [h2.2.2.1, h1.2.2.2.1]
    · intro hnd
      exact h2.2.2.2.1 (h1.2.2.2.2.1 hnd)
    · intro p hp3
      rcases h2.2.2.2.2.1 p hp3 with h | h
      · rcases h1.2.2.2.2.2.1 p h with h3 | h3
        · exact Or.inl h3
        · exact Or.inr (h3 ▸ List.mem_cons_self d rest)
      · exact Or.inr (List.mem_cons_of_mem d h)
    · intro d2 hd2
      rcases List.mem_cons.mp hd2 with h | h
      · subst h
        rcases h1.2.2.2.2.2.2 with ⟨ni, nd, hni, hnd, hedge⟩
        exact ⟨ni, nd, h2.2.1.1 _ ni hni, h2.2.1.1 _ nd hnd, h2.2.1.2.1 _ hedge⟩
      · exact h2.2.2.2.2.2 d2 h

/-- Materialized dependency edges persist along monotone extension. -/
theorem depsDone_mono (f : String → String → Except CobraError Package)
    {st st2 : RState} (h : rMono st st2) (K : List String)
    (hK : ∀ k ∈ K, (st.nodeMap.lookup k).isSome)
    (hd : depsDone f st K) : depsDone f st2 K := by
  intro k hk p hp dep hdep
  rw [h.2.2.1 k (hK k hk)] at hp
  rcases hd k hk p hp dep hdep with ⟨d2, hfd, ni, nd, hni, hnd, hedge⟩
  exact ⟨d2, hfd, ni, nd, h.1 _ ni hni, h.1 _ nd hnd, h.2.1 _ hedge⟩

/-- The worklist expansion preserves the invariant and the
materialized-edges property, drains the worklist, and preserves
node-label distinctness. -/
theorem expand_sound (f : String → String → Except CobraError Package) :
    ∀ (fuel : Nat) (st st2 : RState),
    RInv st → depsDone f st st.processed →
    expand f fuel st = some (.ok st2) →
    RInv st2 ∧ depsDone f st2 st2.processed ∧ st2.toProcess = [] ∧
    (st.graph.nodes.Nodup → st2.graph.nodes.Nodup) := by
  intro fuel
  induction fuel with
  | zero =>
    intro st st2 _ _ h
    exact absurd h (by simp [expand])
  | succ fuel ih =>
    intro st st2 hinv hdd hrun
    rw [expand] at hrun
    cases htp : st.toProcess with
    | nil =>
      rw [htp] at hrun
      simp only [] at hrun
      cases hrun
      exact ⟨hinv, hdd, htp, fun h => h⟩
    | cons pkg rest =>
      rw [htp] at hrun
      simp only [] at hrun
      have hpkg := hinv.toProc_pkg pkg (htp ▸ List.mem_cons_self pkg rest)
      by_cases hproc : pkgKey pkg ∈ st.processed
      · rw [if_pos hproc] at hrun
        have hinv2 : RInv { st with toProcess := rest } := by
          refine ⟨hinv.map_nodes, hinv.nodes_map, hinv.pkg_at, hinv.node_pkg, ?_,
            hinv.processed_nodes, ?_, hinv.edges_bound⟩
          · intro p hp
            exact hinv.toProc_pkg p (htp ▸ List.mem_cons_of_mem pkg hp)
          · intro k hk
            rcases hinv.nodes_cover k hk with h | ⟨p, hp, hpk⟩
            · exact Or.inl h
            · rw [htp] at hp
              rcases List.mem_cons.mp hp with h2 | h2
              · subst h2
                exact Or.inl (hpk ▸ hproc)
              · exact Or.inr ⟨p, h2, hpk⟩
        exact ih { st with toProcess := rest } st2 hinv2 hdd hrun
      · rw [if_neg hproc] at hrun
        have hinv1 : RInv { st with
            toProcess := rest
            processed := pkgKey pkg :: st.processed } := by
          refine ⟨hinv.map_nodes, hinv.nodes_map, hinv.pkg_at, hinv.node_pkg, ?_, ?_, ?_,
            hinv.edges_bound⟩
          · intro p hp
            exact hinv.toProc_pkg p (htp ▸ List.mem_cons_of_mem pkg hp)
          · intro k hk
            rcases List.mem_cons.mp hk with h | h
            · subst h
              exact hpkg.2
            · exact hinv.processed_nodes k h
          · intro k hk
            rcases hinv.nodes_cover k hk with h | ⟨p, hp, hpk⟩
            · exact Or.inl (List.mem_cons_of_mem _ h)
            · rw [htp] at hp
              rcases List.mem_cons.mp hp with h2 | h2
              · subst h2
                exact Or.inl (hpk ▸ List.mem_cons_self _ _)
              · exact Or.inr ⟨p, h2, hpk⟩
        by_cases hde : pkg.dependencies.isEmpty
        · rw [if_pos hde] at hrun
          have hdd1 : depsDone f { st with
              toProcess := rest
              processed := pkgKey pkg :: st.processed }
              (pkgKey pkg :: st.processed) := by
            intro k hk p hp dep hdep
            rcases List.mem_cons.mp hk with h | h
            · subst h
              have hp2 : p = pkg := by
                rw [show ({ st with
                    toProcess := rest
                    processed := pkgKey pkg :: st.processed } : RState).allPackages =
                  st.allPackages from rfl] at hp
                rw [hpkg.1] at hp
                cases hp
                rfl
              subst hp2
              rw [List.isEmpty_iff] at hde
              rw [hde] at hdep
              exact absurd hdep (List.not_mem_nil dep)
            · exact hdd k h p hp dep hdep
          exact ih { st with
            toProcess := rest
            processed := pkgKey pkg :: st.processed } st2 hinv1 hdd1 hrun
        · rw [if_neg hde] at hrun
          cases hfa : fetchAll f pkg.dependencies with
          | error e =>
            rw [hfa] at hrun
            cases hrun
          | ok depPkgs =>
            rw [hfa] at hrun
            simp only [] at hrun
            set st1 : RState := { st with
              toProcess := rest
              processed := pkgKey pkg :: st.processed } with hst1
            have hkey1 : pkgKey pkg ∈ st1.graph.nodes := hpkg.2
            have hfold := foldl_addDepEdge_sound (pkgKey pkg) depPkgs st1 hinv1 hkey1
            have hmono01 : rMono st st1 :=
              ⟨fun k n h => h, fun e he => he, fun k _ => rfl, fun k h => h⟩
            have hf2 := fetchAll_forall2 f pkg.dependencies depPkgs hfa
            have hdd2 : depsDone f (depPkgs.foldl (addDepEdge (pkgKey pkg)) st1)
                (depPkgs.foldl (addDepEdge (pkgKey pkg)) st1).processed := by
              rw [hfold.2.2.1]
              intro k hk p hp dep hdep
              rcases List.mem_cons.mp hk with h | h
              · subst h
                have hiso : (st1.nodeMap.lookup (pkgKey pkg)).isSome :=
                  hinv1.nodes_map _ hkey1
                rw [hfold.2.1.2.2.1 _ hiso] at hp
                have hp2 : p = pkg := by
                  rw [show st1.allPackages = st.allPackages from rfl, hpkg.1] at hp
                  cases hp
                  rfl
                subst hp2
                rcases forall2_exists_right hf2 dep hdep with ⟨d, hd, hfd⟩
                rcases hfold.2.2.2.2.2 d hd with ⟨ni, nd, hni, hnd, hedge⟩
                exact ⟨d, hfd, ni, nd, hni, hnd, hedge⟩
              · refine depsDone_mono f (rMono_trans hmono01 hfold.2.1) st.processed
                  ?_ hdd k h p hp dep hdep
                intro k2 hk2
                exact hinv.nodes_map k2 (hinv.processed_nodes k2 hk2)
            have hrec := ih _ st2 hfold.1 hdd2 hrun
            refine ⟨hrec.1, hrec.2.1, hrec.2.2.1, ?_⟩
            intro hnd
            exact hrec.2.2.2 (hfold.2.2.2.1 hnd)

/-- Seeding appends exactly one node label per root. -/
theorem initFold_nodes : ∀ (roots : List Package) (st : RState),
    (roots.foldl addRootNode st).graph.nodes = st.graph.nodes ++ roots.map pkgKey := by
  intro roots
  induction roots with
  | nil => intro st; simp
  | cons r rest ih =>
    intro st
    rw [List.foldl_cons, ih]
    simp [addRootNode, addNode]

/-- Seeding adds no edges. -/
theorem initFold_edges : ∀ (roots : List Package) (st : RState),
    (roots.foldl addRootNode st).graph.edges = st.graph.edges := by
  intro roots
  induction roots with
  | nil => intro st; rfl
  | cons r rest ih =>
    intro st
    rw [List.foldl_cons, ih]
    rfl

/-- Seeding leaves the worklist field alone. -/
theorem initFold_toProcess : ∀ (roots : List Package) (st : RState),
    (roots.foldl addRootNode st).toProcess = st.toProcess := by
  intro roots
  induction roots with
  | nil => intro st; rfl
  | cons r rest ih =>
    intro st
    rw [List.foldl_cons, ih]
    rfl

/-- Seeding leaves the processed set alone. -/
theorem initFold_processed : ∀ (roots : List Package) (st : RState),
    (roots.foldl addRootNode st).processed = st.processed := by
  intro roots
  induction roots with
  | nil => intro st; rfl
  | cons r rest ih =>
    intro st
    rw [List.foldl_cons, ih]
    rfl

/-- Seeding does not disturb bindings of keys outside the roots. -/
theorem initFold_lookup_frozen : ∀ (roots : List Package) (st : RState) (k : String),
    k ∉ roots.map pkgKey →
    (roots.foldl addRootNode st).allPackages.lookup k = st.allPackages.lookup k := by
  intro roots
  induction roots with
  | nil => intro st k _; rfl
  | cons r rest ih =>
    intro st k hk
    rw [List.foldl_cons, ih (addRootNode st r) k
      (fun h => hk (List.mem_cons_of_mem _ h))]
    show ((pkgKey r, r) :: st.allPackages).lookup k = _
    rw [lookup_cons_ne _ _ (show k ≠ pkgKey r from fun h => hk
      (by rw [List.map_cons, h]; exact List.mem_cons_self _ _))]

/-- With distinct root keys, every root is bound to itself after
seeding. -/
theorem initFold_lookup : ∀ (roots : List Package) (st : RState),
    (roots.map pkgKey).Nodup →
    ∀ p ∈ roots, (roots.foldl addRootNode st).allPackages.lookup (pkgKey p) = some p := by
  intro roots
  induction roots with
  | nil => intro st _ p hp; simp at hp
  | cons r rest ih =>
    intro st hnd p hp
    rw [List.foldl_cons]
    rcases List.mem_cons.mp hp with h | h
    · subst h
      rw [initFold_lookup_frozen rest (addRootNode st p) (pkgKey p)
        (by
          have := List.nodup_cons.mp hnd
          exact this.1)]
      show ((pkgKey p, p) :: st.allPackages).lookup (pkgKey p) = some p
      exact lookup_cons_self _ _ _
    · exact ih (addRootNode st r) (List.nodup_cons.mp hnd).2 p h

/-- Seeding preserves the map coherence facts. -/
theorem initFold_maps : ∀ (roots : List Package) (st : RState),
    (∀ k n, st.nodeMap.lookup k = some n → st.graph.nodes.get? n = some k) →
    (∀ k, k ∈ st.graph.nodes → (st.nodeMap.lookup k).isSome) →
    (∀ k p, st.allPackages.lookup k = some p → pkgKey p = k) →
    (∀ k, k ∈ st.graph.nodes → (st.allPackages.lookup k).isSome) →
    (∀ k n, (roots.foldl addRootNode st).nodeMap.lookup k = some n →
      (roots.foldl addRootNode st).graph.nodes.get? n = some k) ∧
    (∀ k, k ∈ (roots.foldl addRootNode st).graph.nodes →
      ((roots.foldl addRootNode st).nodeMap.lookup k).isSome) ∧
    (∀ k p, (roots.foldl addRootNode st).allPackages.lookup k = some p → pkgKey p = k) ∧
    (∀ k, k ∈ (roots.foldl addRootNode st).graph.nodes →
      ((roots.foldl addRootNode st).allPackages.lookup k).isSome) := by
  intro roots
  induction roots with
  | nil => exact fun st h1 h2 h3 h4 => ⟨h1, h2, h3, h4⟩
  | cons r rest ih =>
    intro st h1 h2 h3 h4
    rw [List.foldl_cons]
    refine ih (addRootNode st r) ?_ ?_ ?_ ?_
    · intro k n h
      show (st.graph.nodes ++ [pkgKey r]).get? n = some k
      by_cases hk : k = pkgKey r
      · subst hk
        rw [show (addRootNode st r).nodeMap =
            (pkgKey r, st.graph.nodes.length) :: st.nodeMap from rfl,
          lookup_cons_self] at h
        cases h
        exact List.get?_concat_length _ _
      · rw [show (addRootNode st r).nodeMap =
            (pkgKey r, st.graph.nodes.length) :: st.nodeMap from rfl,
          lookup_cons_ne _ _ hk] at h
        have h2b := h1 k n h
        rw [List.get?_append (get?_some_lt h2b)]
        exact h2b
    · intro k hk
      show ((( pkgKey r, st.graph.nodes.length) :: st.nodeMap).lookup k).isSome
      by_cases hke : k = pkgKey r
      · subst hke
        rw [lookup_cons_self]
        rfl
      · rw [lookup_cons_ne _ _ hke]
        refine h2 k ?_
        rcases List.mem_append.mp hk with h | h
        · exact h
        · simp only [List.mem_cons, List.not_mem_nil, or_false] at h
          exact absurd h hke
    · intro k p h
      by_cases hke : k = pkgKey r
      · subst hke
        rw [show (addRootNode st r).allPackages =
            (pkgKey r, r) :: st.allPackages from rfl, lookup_cons_self] at h
        cases h
        rfl
      · rw [show (addRootNode st r).allPackages =
            (pkgKey r, r) :: st.allPackages from rfl, lookup_cons_ne _ _ hke] at h
        exact h3 k p h
    · intro k hk
      show ((( pkgKey r, r) :: st.allPackages).lookup k).isSome
      by_cases hke : k = pkgKey r
      · subst hke
        rw [lookup_cons_self]
        rfl
      · rw [lookup_cons_ne _ _ hke]
        refine h4 k ?_
        rcases List.mem_append.mp hk with h | h
        · exact h
        · simp only [List.mem_cons, List.not_mem_nil, or_false] at h
          exact absurd h hke

/-- With distinct root keys, the seeded state satisfies the expansion
invariant, has duplicate-free node labels and an empty processed
set. -/
theorem initState_inv (roots : List Package)
    (hnodup : (roots.map pkgKey).Nodup) :
    RInv (initState roots) ∧ (initState roots).graph.nodes.Nodup ∧
    (initState roots).processed = [] := by
  have hmaps := initFold_maps roots ⟨⟨[], []⟩, [], [], [], []⟩
    (fun k n h => by cases h) (fun k h => by cases h)
    (fun k p h => by cases h) (fun k h => by cases h)
  have hnodes := initFold_nodes roots ⟨⟨[], []⟩, [], [], [], []⟩
  have hedges := initFold_edges roots ⟨⟨[], []⟩, [], [], [], []⟩
  have hproc := initFold_processed roots ⟨⟨[], []⟩, [], [], [], []⟩
  simp only [List.nil_append] at hnodes
  refine ⟨⟨?_, ?_, ?_, ?_, ?_, ?_, ?_, ?_⟩, ?_, ?_⟩
  · exact fun k n h => hmaps.1 k n h
  · exact fun k h => hmaps.2.1 k h
  · exact fun k p h => hmaps.2.2.1 k p h
  · exact fun k h => hmaps.2.2.2 k h
  · intro p hp
    show (roots.foldl addRootNode _).allPackages.lookup (pkgKey p) = some p ∧
      pkgKey p ∈ (roots.foldl addRootNode _).graph.nodes
    have hp2 : p ∈ roots.reverse := hp
    rw [List.mem_reverse] at hp2
    refine ⟨initFold_lookup roots _ hnodup p hp2, ?_⟩
    rw [hnodes]
    exact List.mem_map_of_mem pkgKey hp2
  · intro k hk
    have hk2 : k ∈ (roots.foldl addRootNode
        ⟨⟨[], []⟩, [], [], [], []⟩).processed := hk
    rw [hproc] at hk2
    exact absurd hk2 (List.not_mem_nil k)
  · intro k hk
    show k ∈ (initState roots).processed ∨ _
    rw [show (initState roots).processed = [] from hproc]
    right
    rw [show (initState roots).graph.nodes = roots.map pkgKey from hnodes] at hk
    rcases List.mem_map.mp hk with ⟨p, hp, hpk⟩
    exact ⟨p, List.mem_reverse.mpr hp, hpk⟩
  · intro e he
    rw [show (initState roots).graph.edges = [] from hedges] at he
    exact absurd he (List.not_mem_nil e)
  · rw [show (initState roots).graph.nodes = roots.map pkgKey from hnodes]
    exact hnodup
  · exact hproc

/-- A `filterMap` whose function is total on the list is a `map`. -/
theorem filterMap_eq_map_of_some {α β : Type} (fn : α → Option β) (g2 : α → β) :
    ∀ (l : List α), (∀ x ∈ l, fn x = some (g2 x)) → l.filterMap fn = l.map g2 := by
  intro l
  induction l with
  | nil => intro _; rfl
  | cons a rest ih =>
    intro h
    rw [List.filterMap_cons, h a (List.mem_cons_self a rest), List.map_cons,
      ih (fun x hx => h x (List.mem_cons_of_mem a hx))]

/-- C2 (amended): whenever the direct packages fetched for the input
dependencies have pairwise-distinct `(name, version)` keys and
`resolve` returns a plan, every dependency of every plan element
occurs at a strictly lower plan index — the plan read left to right
is in reverse topological order. -/
theorem resolve_distinct_roots_dependency_order
    (f : String → String → Except CobraError Package) (fuel : Nat)
    (deps : List Dependency) (roots : List Package) (P : List Package)
    (hroots : fetchAll f deps = .ok roots)
    (hnodup : (roots.map pkgKey).Nodup)
    (hres : resolve f fuel deps = some (.ok P)) :
    planOrdered f P := by
  by_cases hne : deps.isEmpty
  · unfold resolve at hres
    rw [if_pos hne] at hres
    cases hres
    intro i hi
    simp at hi
  · unfold resolve at hres
    rw [if_neg hne, hroots] at hres
    simp only [] at hres
    cases hexp : expand f fuel (initState roots) with
    | none =>
      rw [hexp] at hres
      cases hres
    | some r1 =>
      rw [hexp] at hres
      cases r1 with
      | error e =>
        simp only [] at hres
        cases hres
      | ok st =>
        simp only [] at hres
        cases htopo : toposort st.graph fuel with
        | none =>
          rw [htopo] at hres
          cases hres
        | some r2 =>
          rw [htopo] at hres
          cases r2 with
          | error u =>
            cases u
            simp only [] at hres
            cases hres
          | ok sorted =>
            simp only [] at hres
            have hini := initState_inv roots hnodup
            have hdd0 : depsDone f (initState roots) (initState roots).processed := by
              rw [hini.2.2]
              intro k hk
              exact absurd hk (List.not_mem_nil k)
            have hexp2 := expand_sound f fuel (initState roots) st hini.1 hdd0 hexp
            have hnodupN : st.graph.nodes.Nodup := hexp2.2.2.2 hini.2.1
            have htopo2 := topoLoop_sound st.graph hexp2.1.edges_bound fuel 0
              ⟨[], [], [], []⟩ sorted
              ⟨fun x => Iff.rfl, List.nodup_nil,
                fun i hi => absurd hi (Nat.not_lt_zero i),
                fun x hx => absurd hx (List.not_mem_nil x),
                fun t ht => absurd ht (Nat.not_lt_zero t),
                fun x hx => absurd hx (List.not_mem_nil x),
                fun x hx => absurd hx (List.not_mem_nil x)⟩ htopo
            have hfn : ∀ x ∈ sorted.reverse,
                (st.graph.nodes.get? x).bind (st.allPackages.lookup ·) =
                  some (pkgOfNode st x) := by
              intro x hx
              have hxlt : x < st.graph.nodes.length := htopo2.2.2.1 x hx
              have hmem : st.graph.nodes.get ⟨x, hxlt⟩ ∈ st.graph.nodes :=
                List.get_mem _ _ _
              rcases Option.isSome_iff_exists.mp (hexp2.1.node_pkg _ hmem) with ⟨p, hp⟩
              unfold pkgOfNode
              rw [List.get?_eq_get hxlt]
              show st.allPackages.lookup (st.graph.nodes.get ⟨x, hxlt⟩) =
                some ((st.allPackages.lookup (st.graph.nodes.get ⟨x, hxlt⟩)).getD
                  defaultPackage)
              rw [hp]
              rfl
            have hP : P = sorted.reverse.map (pkgOfNode st) := by
              have h2 := filterMap_eq_map_of_some _ (pkgOfNode st) sorted.reverse hfn
              cases hres
              exact h2
            have hlen : P.length = sorted.reverse.length := by
              rw [hP, List.length_map]
            intro i hi dep hdep d0 hd0
            have hiL : i < sorted.reverse.length := hlen ▸ hi
            set t := sorted.reverse.get ⟨i, hiL⟩ with hts
            have ht_lt : t < st.graph.nodes.length :=
              htopo2.2.2.1 t (List.get_mem _ _ _)
            set k := st.graph.nodes.get ⟨t, ht_lt⟩ with hks
            have hk_get : st.graph.nodes.get? t = some k := List.get?_eq_get ht_lt
            have hkmem : k ∈ st.graph.nodes := List.get_mem _ _ _
            rcases Option.isSome_iff_exists.mp (hexp2.1.node_pkg k hkmem) with ⟨p, hp⟩
            have hPget : P.get ⟨i, hi⟩ = p := by
              have h3 : P.get ⟨i, hi⟩ = pkgOfNode st t := by
                have h4 := List.get_of_eq hP ⟨i, hi⟩
                rw [h4]
                simp only [List.get_eq_getElem, List.getElem_map]
                rfl
              rw [h3]
              unfold pkgOfNode
              rw [hk_get]
              show (st.allPackages.lookup k).getD defaultPackage = p
              rw [hp]
              rfl
            have hkproc : k ∈ st.processed := by
              rcases hexp2.1.nodes_cover k hkmem with h | ⟨q, hq, _⟩
              · exact h
              · rw [hexp2.2.2.1] at hq
                exact absurd hq (List.not_mem_nil q)
            have hdep2 : dep ∈ p.dependencies := by
              rw [hPget] at hdep
              exact hdep
            rcases hexp2.2.1 k hkproc p hp dep hdep2 with
              ⟨d, hfd, ni, nd, hni, hnd, hedge⟩
            have hdd0' : d = d0 := by
              have := hfd.symm.trans hd0
              exact Except.ok.inj this
            subst hdd0'
            have hni_get : st.graph.nodes.get? ni = some k := hexp2.1.map_nodes k ni hni
            have hni_t : ni = t := by
              have h1 : st.graph.nodes[ni]? = st.graph.nodes[t]? := by
                rw [← List.get?_eq_getElem?, ← List.get?_eq_getElem?, hni_get, hk_get]
              exact List.getElem?_inj (get?_some_lt hni_get) hnodupN h1
            have hnbr : nd ∈ neighbors st.graph t :=
              mem_neighbors.mpr (hni_t ▸ hedge)
            rcases htopo2.2.2.2 i hiL nd hnbr with ⟨j, hjL, hji, hjget⟩
            have hjP : j < P.length := hlen ▸ hjL
            have hnd_get : st.graph.nodes.get? nd = some (pkgKey d) :=
              hexp2.1.map_nodes (pkgKey d) nd hnd
            have hnd_lt : nd < st.graph.nodes.length := get?_some_lt hnd_get
            have hnd_mem : pkgKey d ∈ st.graph.nodes := get?_some_mem hnd_get
            rcases Option.isSome_iff_exists.mp (hexp2.1.node_pkg _ hnd_mem) with ⟨d2, hd2⟩
            have hPj : P.get ⟨j, hjP⟩ = d2 := by
              have h3 : P.get ⟨j, hjP⟩ = pkgOfNode st (sorted.reverse.get ⟨j, hjL⟩) := by
                have h4 := List.get_of_eq hP ⟨j, hjP⟩
                rw [h4]
                simp only [List.get_eq_getElem, List.getElem_map]
              rw [h3, hjget]
              unfold pkgOfNode
              rw [hnd_get]
              show (st.allPackages.lookup (pkgKey d)).getD defaultPackage = d2
              rw [hd2]
              rfl
            refine ⟨j, hjP, hji, ?_⟩
            rw [hPj]
            exact hexp2.1.pkg_at (pkgKey d) d2 hd2

/-- Counterexample to C2 as stated: on an input that lists the same
direct dependency twice, the resolver returns the plan `[a, b, a]`,
whose first element `a` precedes its own dependency `b`. -/
theorem resolve_duplicate_roots_order_violation :
    resolve fAB 100 dupDeps = some (.ok [pkgA, pkgB, pkgA]) ∧
    ¬ planOrdered fAB [pkgA, pkgB, pkgA] := by
  constructor
  · rfl
  · intro h
    rcases h 0 (by decide) ⟨"b", "*"⟩ (by decide) pkgB (by rfl) with ⟨j, hj, hlt, _⟩
    omega

/-- Witness for the amended C2 at a concrete input: a single root `a`
depending on `b` yields the plan `[b, a]`, which is dependency
ordered. -/
theorem resolve_distinct_roots_dependency_order_witness : planOrdered fAB [pkgB, pkgA] :=
  resolve_distinct_roots_dependency_order fAB 100 [⟨"a", "*"⟩] [pkgA]
    [pkgB, pkgA] (by rfl) (by decide) (by rfl)

/-- Along any walk of the graph, an order-sound node list places the
walk's last node at a strictly lower index than its first node. -/
theorem chain_descend (g : RGraph) (L : List Nat)
    (hord : finOrdered g L) :
    ∀ (m : List Nat) (a c : Nat), chainFromB g a m = true → m.getLast? = some c →
    ∀ i, (hi : i < L.length) → L.get ⟨i, hi⟩ = a →
    ∃ j, ∃ hj : j < L.length, j < i ∧ L.get ⟨j, hj⟩ = c := by
  intro m
  induction m with
  | nil =>
    intro a c h hl
    cases hl
  | cons v rest ih =>
    intro a c hch hl i hi hget
    rw [chainFromB] at hch
    rw [Bool.and_eq_true] at hch
    have hsplit := hch
    have hedge : (a, v) ∈ g.edges := by
      have := hsplit.1
      exact List.mem_of_elem_eq_true this
    have hnbr : v ∈ neighbors g (L.get ⟨i, hi⟩) := by
      rw [hget]
      exact mem_neighbors.mpr hedge
    rcases hord i hi v hnbr with ⟨j1, hj1, hj1i, hj1get⟩
    cases rest with
    | nil =>
      have hc : c = v := by
        cases hl
        rfl
      subst hc
      exact ⟨j1, hj1, hj1i, hj1get⟩
    | cons w rest2 =>
      have hl2 : (w :: rest2).getLast? = some c := by
        rw [List.getLast?_cons_cons] at hl
        exact hl
      rcases ih v c hsplit.2 hl2 j1 hj1 hj1get with ⟨j, hj, hjj1, hjget⟩
      exact ⟨j, hj, Nat.lt_trans hjj1 hj1i, hjget⟩

/-- Branch equation of `addDepEdge` when the dependency key is mapped
but the parent key is not: the state is unchanged. -/
theorem addDepEdge_eq_present_noparent (parentKey : String) (st : RState) (d : Package)
    {nd : Nat}
    (hpl : st.nodeMap.lookup parentKey = none)
    (hnd : st.nodeMap.lookup (pkgKey d) = some nd) :
    addDepEdge parentKey st d = st := by
  unfold addDepEdge
  simp only [hnd, Option.isSome_some, if_true, ite_true, hpl]

/-- Branch equation of `addDepEdge` when the dependency key is new and
the parent key is unmapped: entries are added but no edge. -/
theorem addDepEdge_eq_fresh_noparent (parentKey : String) (st : RState) (d : Package)
    (hpl : st.nodeMap.lookup parentKey = none)
    (hdkf : st.nodeMap.lookup (pkgKey d) = none)
    (hpne : parentKey ≠ pkgKey d) :
    addDepEdge parentKey st d =
      { graph := ⟨st.graph.nodes ++ [pkgKey d], st.graph.edges⟩,
        nodeMap := (pkgKey d, st.graph.nodes.length) :: st.nodeMap,
        allPackages := (pkgKey d, d) :: st.allPackages,
        toProcess := d :: st.toProcess,
        processed := st.processed } := by
  have hlc : List.lookup parentKey ((pkgKey d, st.graph.nodes.length) :: st.nodeMap) =
      none := by
    rw [lookup_cons_ne _ _ hpne]
    exact hpl
  unfold addDepEdge
  simp only [hdkf, Option.isSome_none, Bool.false_eq_true, if_false, ite_false,
    addNode, hlc, lookup_cons_self]

/-- Branch equation of `addDepEdge` when the parent key equals a new
dependency key: entries are added and a self-loop edge on the new
node. -/
theorem addDepEdge_eq_fresh_selfparent (st : RState) (d : Package)
    (hdkf : st.nodeMap.lookup (pkgKey d) = none) :
    addDepEdge (pkgKey d) st d =
      { graph := ⟨st.graph.nodes ++ [pkgKey d],
          st.graph.edges ++ [(st.graph.nodes.length, st.graph.nodes.length)]⟩,
        nodeMap := (pkgKey d, st.graph.nodes.length) :: st.nodeMap,
        allPackages := (pkgKey d, d) :: st.allPackages,
        toProcess := d :: st.toProcess,
        processed := st.processed } := by
  unfold addDepEdge
  simp only [hdkf, Option.isSome_none, Bool.false_eq_true, if_false, ite_false,
    addNode, lookup_cons_self]

/-- Appending a node and prepending its binding preserves the
map-to-nodes coherence. -/
theorem extend_map_nodes (st : RState) (key : String)
    (hmn : ∀ k n, st.nodeMap.lookup k = some n → st.graph.nodes.get? n = some k) :
    ∀ k n, ((key, st.graph.nodes.length) :: st.nodeMap).lookup k = some n →
      (st.graph.nodes ++ [key]).get? n = some k := by
  intro k n h
  by_cases hk : k = key
  · subst hk
    rw [lookup_cons_self] at h
    cases h
    exact List.get?_concat_length _ _
  · rw [lookup_cons_ne _ _ hk] at h
    have h2 := hmn k n h
    rw [List.get?_append (get?_some_lt h2)]
    exact h2

/-- One `addDepEdge` preserves map-to-nodes coherence and edge
bounds, with no distinctness assumption on node labels. -/
theorem addDepEdge_weak (parentKey : String) (st : RState) (d : Package)
    (hmn : ∀ k n, st.nodeMap.lookup k = some n → st.graph.nodes.get? n = some k)
    (heb : ∀ e ∈ st.graph.edges,
      e.1 < st.graph.nodes.length ∧ e.2 < st.graph.nodes.length) :
    (∀ k n, (addDepEdge parentKey st d).nodeMap.lookup k = some n →
      (addDepEdge parentKey st d).graph.nodes.get? n = some k) ∧
    (∀ e ∈ (addDepEdge parentKey st d).graph.edges,
      e.1 < (addDepEdge parentKey st d).graph.nodes.length ∧
      e.2 < (addDepEdge parentKey st d).graph.nodes.length) := by
  by_cases hdk : (st.nodeMap.lookup (pkgKey d)).isSome
  · rcases Option.isSome_iff_exists.mp hdk with ⟨nd, hnd⟩
    cases hpl : st.nodeMap.lookup parentKey with
    | none =>
      rw [addDepEdge_eq_present_noparent parentKey st d hpl hnd]
      exact ⟨hmn, heb⟩
    | some ni =>
      rw [addDepEdge_eq_present parentKey st d hpl hnd]
      refine ⟨hmn, ?_⟩
      intro e he
      rcases List.mem_append.mp he with h | h
      · exact heb e h
      · simp only [List.mem_cons, List.not_mem_nil, or_false] at h
        subst h
        exact ⟨get?_some_lt (hmn parentKey ni hpl),
          get?_some_lt (hmn (pkgKey d) nd hnd)⟩
  · have hdkf : st.nodeMap.lookup (pkgKey d) = none :=
      Option.not_isSome_iff_eq_none.mp hdk
    by_cases hpe : parentKey = pkgKey d
    · subst hpe
      rw [addDepEdge_eq_fresh_selfparent st d hdkf]
      refine ⟨extend_map_nodes st (pkgKey d) hmn, ?_⟩
      intro e he
      rcases List.mem_append.mp he with h | h
      · have h2 := heb e h
        simp only [List.length_append, List.length_cons, List.length_nil]
        omega
      · simp only [List.mem_cons, List.not_mem_nil, or_false] at h
        subst h
        simp only [List.length_append, List.length_cons, List.length_nil]
        omega
    · cases hpl : st.nodeMap.lookup parentKey with
      | none =>
        rw [addDepEdge_eq_fresh_noparent parentKey st d hpl hdkf hpe]
        refine ⟨extend_map_nodes st (pkgKey d) hmn, ?_⟩
        intro e he
        have h2 := heb e he
        simp only [List.length_append, List.length_cons, List.length_nil]
        omega
      | some ni =>
        rw [addDepEdge_eq_fresh parentKey st d hpl hdkf hpe]
        refine ⟨extend_map_nodes st (pkgKey d) hmn, ?_⟩
        intro e he
        rcases List.mem_append.mp he with h | h
        · have h2 := heb e h
          simp only [List.length_append, List.length_cons, List.length_nil]
          omega
        · simp only [List.mem_cons, List.not_mem_nil, or_false] at h
          subst h
          have h3 := get?_some_lt (hmn parentKey ni hpl)
          simp only [List.length_append, List.length_cons, List.length_nil]
          omega

/-- Folding `addDepEdge` over a dependency list preserves
map-to-nodes coherence and edge bounds. -/
theorem foldl_addDepEdge_weak (parentKey : String) :
    ∀ (ds : List Package) (st : RState),
    (∀ k n, st.nodeMap.lookup k = some n → st.graph.nodes.get? n = some k) →
    (∀ e ∈ st.graph.edges,
      e.1 < st.graph.nodes.length ∧ e.2 < st.graph.nodes.length) →
    (∀ k n, (ds.foldl (addDepEdge parentKey) st).nodeMap.lookup k = some n →
      (ds.foldl (addDepEdge parentKey) st).graph.nodes.get? n = some k) ∧
    (∀ e ∈ (ds.foldl (addDepEdge parentKey) st).graph.edges,
      e.1 < (ds.foldl (addDepEdge parentKey) st).graph.nodes.length ∧
      e.2 < (ds.foldl (addDepEdge parentKey) st).graph.nodes.length) := by
  intro ds
  induction ds with
  | nil => exact fun st h1 h2 => ⟨h1, h2⟩
  | cons a rest ih =>
    intro st h1 h2
    rw [List.foldl_cons]
    have hw := addDepEdge_weak parentKey st a h1 h2
    exact ih (addDepEdge parentKey st a) hw.1 hw.2

/-- The expansion loop preserves map-to-nodes coherence and edge
bounds, for arbitrary (possibly key-duplicated) starting states. -/
theorem expand_weak (f : String → String → Except CobraError Package) :
    ∀ (fuel : Nat) (st st2 : RState),
    (∀ k n, st.nodeMap.lookup k = some n → st.graph.nodes.get? n = some k) →
    (∀ e ∈ st.graph.edges,
      e.1 < st.graph.nodes.length ∧ e.2 < st.graph.nodes.length) →
    expand f fuel st = some (.ok st2) →
    (∀ k n, st2.nodeMap.lookup k = some n → st2.graph.nodes.get? n = some k) ∧
    (∀ e ∈ st2.graph.edges,
      e.1 < st2.graph.nodes.length ∧ e.2 < st2.graph.nodes.length) := by
  intro fuel
  induction fuel with
  | zero =>
    intro st st2 _ _ h
    exact absurd h (by simp [expand])
  | succ fuel ih =>
    intro st st2 h1 h2 hrun
    rw [expand] at hrun
    cases htp : st.toProcess with
    | nil =>
      rw [htp] at hrun
      simp only [] at hrun
      cases hrun
      exact ⟨h1, h2⟩
    | cons pkg rest =>
      rw [htp] at hrun
      simp only [] at hrun
      by_cases hproc : pkgKey pkg ∈ st.processed
      · rw [if_pos hproc] at hrun
        exact ih { st with toProcess := rest } st2 h1 h2 hrun
      · rw [if_neg hproc] at hrun
        by_cases hde : pkg.dependencies.isEmpty
        · rw [if_pos hde] at hrun
          exact ih { st with
            toProcess := rest
            processed := pkgKey pkg :: st.processed } st2 h1 h2 hrun
        · rw [if_neg hde] at hrun
          cases hfa : fetchAll f pkg.dependencies with
          | error e =>
            rw [hfa] at hrun
            cases hrun
          | ok depPkgs =>
            rw [hfa] at hrun
            simp only [] at hrun
            have hfold := foldl_addDepEdge_weak (pkgKey pkg) depPkgs
              { st with
                toProcess := rest
                processed := pkgKey pkg :: st.processed } h1 h2
            exact ih _ st2 hfold.1 hfold.2 hrun

/-- C7: if the dependency graph built during resolution contains a
directed cycle and `resolve` terminates on the input, then it returns
the error `ResolutionFailed "Circular dependency detected"` rather
than any plan. -/
theorem resolve_cycle_resolution_failed
    (f : String → String → Except CobraError Package) (fuel : Nat)
    (deps : List Dependency) (roots : List Package) (st : RState)
    (r : Except CobraError (List Package))
    (hroots : fetchAll f deps = .ok roots)
    (hexp : expand f fuel (initState roots) = some (.ok st))
    (hcyc : hasCycle st.graph)
    (hr : resolve f fuel deps = some r) :
    resolve f fuel deps =
      some (.error (.ResolutionFailed "Circular dependency detected")) := by
  by_cases hne : deps.isEmpty
  · exfalso
    have hdeps : deps = [] := List.isEmpty_iff.mp hne
    subst hdeps
    have h0 : (Except.ok ([] : List Package) : Except CobraError (List Package)) =
        .ok roots := hroots
    have hroots2 : roots = [] := (Except.ok.inj h0).symm
    subst hroots2
    cases fuel with
    | zero => exact absurd hexp (by simp [expand])
    | succ fm =>
      rw [expand] at hexp
      rw [show (initState ([] : List Package)).toProcess = [] from rfl] at hexp
      simp only [] at hexp
      have hst : initState ([] : List Package) = st := by
        have h1 := Option.some.inj hexp
        exact Except.ok.inj h1
      subst hst
      rcases hcyc with ⟨u, l, hch⟩
      have hnil : ∀ (m : List Nat) (u0 : Nat),
          chainFromB (initState ([] : List Package)).graph u0 m = true → m = [] := by
        intro m u0 hm
        cases m with
        | nil => rfl
        | cons v rest =>
          rw [chainFromB] at hm
          rw [show (initState ([] : List Package)).graph.edges = [] from rfl] at hm
          simp at hm
      have hcon := hnil (l ++ [u]) u hch
      exact absurd hcon (by simp)
  · unfold resolve at hr ⊢
    rw [if_neg hne, hroots] at hr ⊢
    simp only [] at hr ⊢
    rw [hexp] at hr ⊢
    simp only [] at hr ⊢
    cases htopo : toposort st.graph fuel with
    | none =>
      rw [htopo] at hr
      cases hr
    | some r2 =>
      cases r2 with
      | error u0 =>
        cases u0
        rfl
      | ok sorted =>
        exfalso
        rw [htopo] at hr
        have hmaps := initFold_maps roots ⟨⟨[], []⟩, [], [], [], []⟩
          (fun k n h => by cases h) (fun k h => by cases h)
          (fun k p h => by cases h) (fun k h => by cases h)
        have hmn0 : ∀ k n, (initState roots).nodeMap.lookup k = some n →
            (initState roots).graph.nodes.get? n = some k :=
          fun k n h => hmaps.1 k n h
        have heb0 : ∀ e ∈ (initState roots).graph.edges,
            e.1 < (initState roots).graph.nodes.length ∧
            e.2 < (initState roots).graph.nodes.length := by
          intro e he
          have he2 : e ∈ (roots.foldl addRootNode
              ⟨⟨[], []⟩, [], [], [], []⟩).graph.edges := he
          rw [initFold_edges] at he2
          exact absurd he2 (List.not_mem_nil e)
        have hw := expand_weak f fuel (initState roots) st hmn0 heb0 hexp
        have htopo2 := topoLoop_sound st.graph hw.2 fuel 0
          ⟨[], [], [], []⟩ sorted
          ⟨fun x => Iff.rfl, List.nodup_nil,
            fun i hi => absurd hi (Nat.not_lt_zero i),
            fun x hx => absurd hx (List.not_mem_nil x),
            fun t ht => absurd ht (Nat.not_lt_zero t),
            fun x hx => absurd hx (List.not_mem_nil x),
            fun x hx => absurd hx (List.not_mem_nil x)⟩ htopo
        rcases hcyc with ⟨u, l, hch⟩
        have hfirst : ∃ v, (u, v) ∈ st.graph.edges := by
          cases l with
          | nil =>
            simp only [List.nil_append] at hch
            rw [chainFromB] at hch
            rw [Bool.and_eq_true] at hch
            exact ⟨u, List.mem_of_elem_eq_true hch.1⟩
          | cons v l2 =>
            simp only [List.cons_append] at hch
            rw [chainFromB] at hch
            rw [Bool.and_eq_true] at hch
            exact ⟨v, List.mem_of_elem_eq_true hch.1⟩
        rcases hfirst with ⟨v0, hv0⟩
        have hu_lt : u < st.graph.nodes.length := (hw.2 (u, v0) hv0).1
        have hu_mem : u ∈ sorted.reverse := htopo2.1 u hu_lt
        rcases List.mem_iff_get.mp hu_mem with ⟨⟨i, hi⟩, hget⟩
        have hlast : (l ++ [u]).getLast? = some u := List.getLast?_concat l
        rcases chain_descend st.graph sorted.reverse htopo2.2.2.2 (l ++ [u]) u u
          hch hlast i hi hget with ⟨j, hj, hji, hjget⟩
        have heq : sorted.reverse.get ⟨j, hj⟩ = sorted.reverse.get ⟨i, hi⟩ := by
          rw [hjget, hget]
        have hij := (List.Nodup.get_inj_iff htopo2.2.1).mp heq
        have hji2 : j = i := congrArg Fin.val hij
        omega

/-- Witness for C7 at a concrete input: on the cyclic index
`a 1.0 → b 1.0 → a 1.0` the built graph has the cycle `0 → 1 → 0` and
`resolve` returns the circular-dependency error. -/
theorem resolve_cycle_resolution_failed_witness :
    fetchAll fCyc cycDeps = .ok [pkgACyc] ∧
    expand fCyc 100 (initState [pkgACyc]) = some (.ok cycState) ∧
    hasCycle cycState.graph ∧
    resolve fCyc 100 cycDeps =
      some (.error (.ResolutionFailed "Circular dependency detected")) :=
  ⟨by rfl, by rfl, ⟨0, [1], by decide⟩,
    resolve_cycle_resolution_failed fCyc 100 cycDeps [pkgACyc] cycState
      (.error (.ResolutionFailed "Circular dependency detected"))
      (by rfl) (by rfl) ⟨0, [1], by decide⟩ (by rfl)⟩
